import Mathlib

/-!
Verification development for the `background_worker` crate (`src/lib.rs`).

The crate defines `BackgroundWorker<Input, Output>`, a struct with fields

* `function : fn(Input) -> Output` — the user-supplied transformation,
* `thread_handle : Option<JoinHandle<()>>` — slot for the worker handle,
* `outqueue : Arc<Mutex<VecDeque<Output>>>` — completed outputs,
* `inqueue : Arc<Mutex<VecDeque<Input>>>` — pending inputs,
* `thread_dead : Arc<AtomicBool>` — true exactly when no worker thread runs
  (initialized to true by `new`).

and methods `new`, `pop`, `pop_vec`, `create_thread`, `spawn_thread_if_dead`,
`enque`, `enque_vec`, `join`.

We embed the code in two complementary ways.

1. Pure transcriptions of the buffer-manipulating methods (`pushBack` for the
   `inqueue.lock().unwrap().push_back(value)` statement shared by `enque` and
   `enque_vec`, `popFn` for `pop`, `pop_vec`, `create_thread`,
   `spawn_thread_if_dead`, `enque`, `enque_vec`) as state transformers on a
   record `SysState` mirroring the struct fields, extended with ghost fields
   (`log`, `done`, `consumed`, `calls`) that record history and never
   influence any behaviour.

2. A labelled small-step transition system `LStep` describing the genuinely
   concurrent execution: producer-side calls are serialized (every method of
   `BackgroundWorker` takes `&mut self`, so the borrow checker serializes
   calls on one instance), but the worker thread spawned by `create_thread`
   runs in parallel, interleaving with the producer at the granularity of
   lock acquisitions and atomic flag accesses.  The worker body is

       while let Some(data) = inqueue_clone.lock().unwrap().pop_front() {
           outqueue_clone.lock().unwrap().push_back(func_clone(data));
       }
       thread_dead_clone.store(true, Ordering::Release);

   Two facts of Rust temporary-scope semantics shape the worker phases:

   * a `while let` desugars to `loop` + `match`, and the scrutinee's
     temporaries — here the inqueue `MutexGuard` — are dropped only at the
     end of each `match` arm, so the inqueue lock is held for the whole
     body of each loop iteration;
   * in `outqueue_clone.lock().unwrap().push_back(func_clone(data))` the
     receiver (the outqueue guard) is evaluated before the argument, so the
     outqueue lock is acquired before `func_clone(data)` is evaluated and
     released at the end of that statement.

   Hence a worker iterates through the phases: `atHead` (no lock held, about
   to lock the inqueue and pop), `gotItem x` (holds the inqueue lock, popped
   `x`), `invoking x` (holds both locks, about to evaluate the
   transformation on `x` and push the result), back to `atHead` (both
   guards dropped at the end of the iteration); or, if the pop returned
   `None`, `exiting` (guard dropped by `break`, about to store
   `thread_dead = true`) and finally `terminated`.

Machine integers do not occur (queue indices are `usize` but only used as
list positions), so lists and `Nat` model the buffers exactly.
-/

namespace BackgroundWorker

/-- Phase of one spawned worker thread, as dictated by the worker closure in
`create_thread` and Rust's temporary-scope rules (see the file header). -/
inductive WPhase (I : Type) where
  | atHead : WPhase I
  | gotItem (x : I) : WPhase I
  | invoking (x : I) : WPhase I
  | exiting : WPhase I
  | terminated : WPhase I
deriving DecidableEq

/-- Control point of the (serialized) producer side, i.e. of the caller that
owns `&mut BackgroundWorker` and invokes its methods. -/
inductive PCtl (I : Type) where
  | idle : PCtl I
  | pushing (rest : List I) : PCtl I
  | spawnCheck : PCtl I
  | spawning : PCtl I
  | swapping : PCtl I
  | joining (wid : Nat) : PCtl I
deriving DecidableEq

/-- Ghost record of one completed-or-started producer call. -/
inductive CallRec (I : Type) where
  | cEnque (x : I) : CallRec I
  | cEnqueVec (xs : List I) : CallRec I
  | cJoin : CallRec I
  | cPop : CallRec I
deriving DecidableEq

/-- Global state: the fields of `BackgroundWorker` (`function`,
`thread_handle`, `outqueue`, `inqueue`, `thread_dead`), the phases of all
worker threads spawned so far (`workers`, indexed in spawn order; a
`JoinHandle` value is modelled by the index of the thread it refers to), the
producer control point `pctl`, and ghost history fields: `log` (all inputs
ever pushed to the inqueue, in order), `done` (all inputs whose transformed
value has been pushed to the outqueue, in order), `consumed` (all values
popped from the outqueue, in order) and `calls` (producer calls made). -/
structure SysState (I O : Type) where
  function : I → O
  thread_handle : Option Nat
  outqueue : List O
  inqueue : List I
  thread_dead : Bool
  workers : List (WPhase I)
  pctl : PCtl I
  log : List I
  done : List I
  consumed : List O
  calls : List (CallRec I)

variable {I O : Type}

/-- Transcription of `BackgroundWorker::new(func)`: empty queues, no handle,
`thread_dead` initialized to `true`; no thread is spawned. -/
def new (f : I → O) : SysState I O :=
  { function := f, thread_handle := none, outqueue := [], inqueue := [],
    thread_dead := true, workers := [], pctl := .idle,
    log := [], done := [], consumed := [], calls := [] }

/-- Transcription of the statement `self.inqueue.lock().unwrap().push_back(value)`
(the buffer-append performed by `enque`, and per element by `enque_vec`). -/
def pushBack (x : I) (s : SysState I O) : SysState I O :=
  { s with inqueue := s.inqueue ++ [x], log := s.log ++ [x] }

/-- Transcription of `BackgroundWorker::create_thread`: store `false` into
`thread_dead`, then spawn a worker thread (a fresh worker in phase `atHead`)
and record its handle in `thread_handle`. -/
def create_thread (s : SysState I O) : SysState I O :=
  { s with thread_dead := false,
           workers := s.workers ++ [.atHead],
           thread_handle := some s.workers.length }

/-- Transcription of `BackgroundWorker::spawn_thread_if_dead`: load
`thread_dead`; if it reads `true`, run `create_thread`. -/
def spawn_thread_if_dead (s : SysState I O) : SysState I O :=
  if s.thread_dead then create_thread s else s

/-- Transcription of `BackgroundWorker::enque`: push the value to the back of
the inqueue, then `spawn_thread_if_dead`. -/
def enque (x : I) (s : SysState I O) : SysState I O :=
  spawn_thread_if_dead (pushBack x s)

/-- Transcription of the `for i in values` loop inside `enque_vec`: push each
element of the vector to the back of the inqueue, in order, one lock
acquisition per element. -/
def enque_vec_loop : List I → SysState I O → SysState I O
  | [], s => s
  | x :: rest, s => enque_vec_loop rest (pushBack x s)

/-- Transcription of `BackgroundWorker::enque_vec`: the push loop, then one
`spawn_thread_if_dead`. -/
def enque_vec (xs : List I) (s : SysState I O) : SysState I O :=
  spawn_thread_if_dead (enque_vec_loop xs s)

/-- Modelled from the spec, for the refinement claim about `enque_vec`
(spec §4.3: "appends each element of `values` to the input buffer tail,
preserving the sequence's order, ... then triggers spawn-if-dead exactly
once after the batch completes", i.e. the single-item enqueue's
buffer-append for each element followed by exactly one spawn-if-dead
check). -/
def enque_vec_spec (xs : List I) (s : SysState I O) : SysState I O :=
  spawn_thread_if_dead (xs.foldl (fun t x => pushBack x t) s)

/-- Transcription of `BackgroundWorker::pop`:
`self.outqueue.lock().unwrap().pop_front()`.  Returns `none` (a normal
result, not an error) when the outqueue is empty. -/
def popFn (s : SysState I O) : Option O × SysState I O :=
  match s.outqueue with
  | [] => (none, s)
  | y :: rest => (some y, { s with outqueue := rest, consumed := s.consumed ++ [y] })

/-- Transcription of `BackgroundWorker::pop_vec(buffer)`: for each slot of
the buffer in order, call `pop`; on success overwrite the slot and increment
the count, on failure leave the slot untouched (and keep iterating).
Returns the number of successful pops, the final state, and the final
buffer contents. -/
def pop_vec (s : SysState I O) : List O → Nat × SysState I O × List O
  | [] => (0, s, [])
  | b :: bs =>
    match popFn s with
    | (some y, s1) =>
      let r := pop_vec s1 bs
      (r.1 + 1, r.2.1, y :: r.2.2)
    | (none, s1) =>
      let r := pop_vec s1 bs
      (r.1, r.2.1, b :: r.2.2)

/-- Results of `n` successive calls to `pop` (draining the outqueue). -/
def popResults : SysState I O → Nat → List (Option O)
  | _, 0 => []
  | s, n + 1 => (popFn s).1 :: popResults (popFn s).2 n

/-- State change performed by one producer call to `pop` (ghost call record
added). -/
def popCall (s : SysState I O) : SysState I O :=
  { (popFn s).2 with calls := s.calls ++ [.cPop] }

/-- Whether a worker in this phase holds the inqueue mutex: from the pop
until the end of the loop-body iteration (`while let` scrutinee guard). -/
def holdsInLock : WPhase I → Bool
  | .gotItem _ => true
  | .invoking _ => true
  | _ => false

/-- Whether a worker in this phase holds the outqueue mutex: from evaluating
the `outqueue.lock().unwrap()` receiver until the end of the `push_back`
statement, which spans the evaluation of `func_clone(data)`. -/
def holdsOutLock : WPhase I → Bool
  | .invoking _ => true
  | _ => false

/-- No thread holds the inqueue mutex. -/
def inLockFree (s : SysState I O) : Prop := ∀ w ∈ s.workers, holdsInLock w = false

/-- No thread holds the outqueue mutex. -/
def outLockFree (s : SysState I O) : Prop := ∀ w ∈ s.workers, holdsOutLock w = false

/-- Some worker holds the inqueue mutex. -/
def inLockHeld (s : SysState I O) : Prop := ∃ w ∈ s.workers, holdsInLock w = true

/-- Some worker holds the outqueue mutex. -/
def outLockHeld (s : SysState I O) : Prop := ∃ w ∈ s.workers, holdsOutLock w = true

instance (s : SysState I O) : Decidable (inLockFree s) := by
  unfold inLockFree; infer_instance

instance (s : SysState I O) : Decidable (outLockFree s) := by
  unfold outLockFree; infer_instance

/-- Step labels: one per producer micro-step (call entry or lock-granular
internal step) and one per worker micro-step (tagged with the worker's
index). -/
inductive SLabel (I : Type) where
  | callEnque (x : I) : SLabel I
  | callEnqueVec (xs : List I) : SLabel I
  | callJoin : SLabel I
  | callPop : SLabel I
  | pushStep : SLabel I
  | pushDone : SLabel I
  | checkDead : SLabel I
  | spawnStep : SLabel I
  | swapStep : SLabel I
  | joinWait : SLabel I
  | wPop (wid : Nat) : SLabel I
  | wLockOut (wid : Nat) : SLabel I
  | wApply (wid : Nat) : SLabel I
  | wExit (wid : Nat) : SLabel I
  | wDie (wid : Nat) : SLabel I
deriving DecidableEq

/-- Labelled small-step relation of the whole system.  Producer calls start
only from `pctl = idle` (methods take `&mut self`, so one call completes its
micro-steps before the next starts, interleaved only with worker steps).
A step that needs a mutex is enabled only when no other thread holds it:
this models blocking lock acquisition. -/
inductive LStep : SysState I O → SLabel I → SysState I O → Prop where
  | callEnque (s : SysState I O) (x : I) :
      s.pctl = .idle → inLockFree s →
      LStep s (.callEnque x)
        { pushBack x s with pctl := .spawnCheck, calls := s.calls ++ [.cEnque x] }
  | callEnqueVec (s : SysState I O) (xs : List I) :
      s.pctl = .idle →
      LStep s (.callEnqueVec xs)
        { s with pctl := .pushing xs, calls := s.calls ++ [.cEnqueVec xs] }
  | pushStep (s : SysState I O) (x : I) (rest : List I) :
      s.pctl = .pushing (x :: rest) → inLockFree s →
      LStep s .pushStep { pushBack x s with pctl := .pushing rest }
  | pushDone (s : SysState I O) :
      s.pctl = .pushing [] →
      LStep s .pushDone { s with pctl := .spawnCheck }
  | checkDeadTrue (s : SysState I O) :
      s.pctl = .spawnCheck → s.thread_dead = true →
      LStep s .checkDead { s with thread_dead := false, pctl := .spawning }
  | checkDeadFalse (s : SysState I O) :
      s.pctl = .spawnCheck → s.thread_dead = false →
      LStep s .checkDead { s with pctl := .idle }
  | spawnStep (s : SysState I O) :
      s.pctl = .spawning →
      LStep s .spawnStep
        { s with workers := s.workers ++ [.atHead],
                 thread_handle := some s.workers.length, pctl := .idle }
  | callJoinDead (s : SysState I O) :
      s.pctl = .idle → s.thread_dead = true →
      LStep s .callJoin { s with calls := s.calls ++ [.cJoin] }
  | callJoinAlive (s : SysState I O) :
      s.pctl = .idle → s.thread_dead = false →
      LStep s .callJoin { s with pctl := .swapping, calls := s.calls ++ [.cJoin] }
  | swapSome (s : SysState I O) (wid : Nat) :
      s.pctl = .swapping → s.thread_handle = some wid →
      LStep s .swapStep { s with thread_handle := none, pctl := .joining wid }
  | swapNone (s : SysState I O) :
      s.pctl = .swapping → s.thread_handle = none →
      LStep s .swapStep { s with pctl := .idle }
  | joinWait (s : SysState I O) (wid : Nat) :
      s.pctl = .joining wid → s.workers[wid]? = some .terminated →
      LStep s .joinWait { s with pctl := .idle }
  | callPop (s : SysState I O) :
      s.pctl = .idle → outLockFree s →
      LStep s .callPop (popCall s)
  | wPop (s : SysState I O) (wid : Nat) (x : I) (rest : List I) :
      s.workers[wid]? = some .atHead → s.inqueue = x :: rest → inLockFree s →
      LStep s (.wPop wid)
        { s with inqueue := rest, workers := s.workers.set wid (.gotItem x) }
  | wExit (s : SysState I O) (wid : Nat) :
      s.workers[wid]? = some .atHead → s.inqueue = [] → inLockFree s →
      LStep s (.wExit wid) { s with workers := s.workers.set wid .exiting }
  | wLockOut (s : SysState I O) (wid : Nat) (x : I) :
      s.workers[wid]? = some (.gotItem x) → outLockFree s →
      LStep s (.wLockOut wid) { s with workers := s.workers.set wid (.invoking x) }
  | wApply (s : SysState I O) (wid : Nat) (x : I) :
      s.workers[wid]? = some (.invoking x) →
      LStep s (.wApply wid)
        { s with outqueue := s.outqueue ++ [s.function x],
                 done := s.done ++ [x], workers := s.workers.set wid .atHead }
  | wDie (s : SysState I O) (wid : Nat) :
      s.workers[wid]? = some .exiting →
      LStep s (.wDie wid)
        { s with thread_dead := true, workers := s.workers.set wid .terminated }

/-- Finite executions: `Trace s tr s'` means the system steps from `s` to
`s'` through the labels `tr`, in order. -/
inductive Trace : SysState I O → List (SLabel I) → SysState I O → Prop where
  | nil (s : SysState I O) : Trace s [] s
  | cons {s s1 s2 : SysState I O} {l : SLabel I} {tr : List (SLabel I)} :
      LStep s l s1 → Trace s1 tr s2 → Trace s (l :: tr) s2

/-! Basic frame lemmas about steps and traces. -/

theorem LStep.function_frame {s s' : SysState I O} {l : SLabel I}
    (h : LStep s l s') : s'.function = s.function := by
  cases h <;> simp [pushBack, popCall, popFn]
  split <;> rfl

theorem Trace.function_const {s s' : SysState I O} {tr : List (SLabel I)}
    (h : Trace s tr s') : s'.function = s.function := by
  induction h with
  | nil => rfl
  | cons hstep _ ih => rw [ih, hstep.function_frame]

theorem LStep.calls_snoc {s s' : SysState I O} {l : SLabel I}
    (h : LStep s l s') : ∃ e, s'.calls = s.calls ++ e := by
  cases h with
  | callEnque x h1 h2 => exact ⟨_, rfl⟩
  | callEnqueVec xs h1 => exact ⟨_, rfl⟩
  | callJoinDead h1 h2 => exact ⟨_, rfl⟩
  | callJoinAlive h1 h2 => exact ⟨_, rfl⟩
  | callPop h1 h2 => exact ⟨_, rfl⟩
  | _ => exact ⟨[], by simp [pushBack]⟩

theorem Trace.calls_mono {s s' : SysState I O} {tr : List (SLabel I)}
    (h : Trace s tr s') : ∃ e, s'.calls = s.calls ++ e := by
  induction h with
  | nil => exact ⟨[], by simp⟩
  | cons hstep _ ih =>
    obtain ⟨e1, he1⟩ := hstep.calls_snoc
    obtain ⟨e2, he2⟩ := ih
    exact ⟨e1 ++ e2, by rw [he2, he1, List.append_assoc]⟩

/-! Characterization of the pure pop operations. -/

theorem popResults_eq (n : Nat) : ∀ s : SysState I O,
    popResults s n =
      (s.outqueue.take n).map some ++ List.replicate (n - s.outqueue.length) none := by
  induction n with
  | zero => intro s; simp [popResults]
  | succ n ih =>
    intro s
    rcases hq : s.outqueue with _ | ⟨y, rest⟩
    · simp [popResults, popFn, hq, ih, List.replicate_succ]
    · simp [popResults, popFn, hq, ih]

theorem pop_vec_count (buffer : List O) : ∀ s : SysState I O,
    (pop_vec s buffer).1 = min buffer.length s.outqueue.length := by
  induction buffer with
  | nil => intro s; simp [pop_vec]
  | cons b bs ih =>
    intro s
    rcases hq : s.outqueue with _ | ⟨y, rest⟩
    · simp [pop_vec, popFn, hq, ih]
    · simp [pop_vec, popFn, hq, ih, Nat.add_min_add_right]

theorem pop_vec_buffer (buffer : List O) : ∀ s : SysState I O,
    (pop_vec s buffer).2.2 =
      s.outqueue.take buffer.length ++ buffer.drop s.outqueue.length := by
  induction buffer with
  | nil => intro s; simp [pop_vec]
  | cons b bs ih =>
    intro s
    rcases hq : s.outqueue with _ | ⟨y, rest⟩
    · simp [pop_vec, popFn, hq, ih]
    · simp [pop_vec, popFn, hq, ih]

theorem pop_vec_outqueue (buffer : List O) : ∀ s : SysState I O,
    (pop_vec s buffer).2.1.outqueue = s.outqueue.drop buffer.length := by
  induction buffer with
  | nil => intro s; simp [pop_vec]
  | cons b bs ih =>
    intro s
    rcases hq : s.outqueue with _ | ⟨y, rest⟩
    · simp [pop_vec, popFn, hq, ih]
    · simp [pop_vec, popFn, hq, ih]

/-- C3: with a destination buffer longer than the available output, `pop_vec`
returns the available-output count `m`, overwrites exactly the first `m`
slots with the popped values in FIFO order, leaves the remaining slots with
their prior contents, and drains the outqueue. -/
theorem pop_vec_partial_fill (s : SysState I O) (buffer : List O)
    (h : s.outqueue.length < buffer.length) :
    (pop_vec s buffer).1 = s.outqueue.length ∧
    (pop_vec s buffer).2.2 = s.outqueue ++ buffer.drop s.outqueue.length ∧
    (pop_vec s buffer).2.1.outqueue = [] := by
  refine ⟨?_, ?_, ?_⟩
  · rw [pop_vec_count]; exact Nat.min_eq_right (Nat.le_of_lt h)
  · rw [pop_vec_buffer, List.take_of_length_le (Nat.le_of_lt h)]
  · rw [pop_vec_outqueue, List.drop_eq_nil_of_le (Nat.le_of_lt h)]

/-- Witness for C3 at a concrete state: outqueue `[10, 20]`, destination
buffer `[0, 0, 0]`. -/
theorem pop_vec_partial_fill_witness :
    (pop_vec { new Nat.succ with outqueue := [10, 20] } [0, 0, 0]).1 = 2 ∧
    (pop_vec { new Nat.succ with outqueue := [10, 20] } [0, 0, 0]).2.2 = [10, 20, 0] ∧
    (pop_vec { new Nat.succ with outqueue := [10, 20] } [0, 0, 0]).2.1.outqueue = [] :=
  pop_vec_partial_fill { new Nat.succ with outqueue := [10, 20] } [0, 0, 0] (by decide)

/-! Claim C4: the batch enqueue refines per-element buffer-appends followed
by exactly one spawn check. -/

theorem enque_vec_loop_eq_foldl (xs : List I) : ∀ s : SysState I O,
    enque_vec_loop xs s = xs.foldl (fun t x => pushBack x t) s := by
  induction xs with
  | nil => intro s; rfl
  | cons x rest ih => intro s; simp [enque_vec_loop, ih]

theorem enque_vec_loop_inqueue (xs : List I) : ∀ s : SysState I O,
    (enque_vec_loop xs s).inqueue = s.inqueue ++ xs := by
  induction xs with
  | nil => intro s; simp [enque_vec_loop]
  | cons x rest ih => intro s; simp [enque_vec_loop, ih, pushBack]

theorem spawn_thread_if_dead_inqueue (s : SysState I O) :
    (spawn_thread_if_dead s).inqueue = s.inqueue := by
  unfold spawn_thread_if_dead create_thread
  split <;> rfl

/-- C4: `enque_vec` computes exactly the state produced by performing the
single-item enqueue's buffer-append (`pushBack`, the transcription of
`inqueue.lock().unwrap().push_back(value)` in `enque`) once per element in
order, followed by exactly one `spawn_thread_if_dead`; in particular the
elements end up at the inqueue tail in their original order. -/
theorem enque_vec_refines_spec (xs : List I) (s : SysState I O) :
    enque_vec xs s = enque_vec_spec xs s ∧
    (enque_vec xs s).inqueue = s.inqueue ++ xs := by
  constructor
  · unfold enque_vec enque_vec_spec
    rw [enque_vec_loop_eq_foldl]
  · unfold enque_vec
    rw [spawn_thread_if_dead_inqueue, enque_vec_loop_inqueue]

/-- Witness for C4 at concrete inputs. -/
theorem enque_vec_refines_spec_witness :
    enque_vec [1, 2, 3] (new Nat.succ) = enque_vec_spec [1, 2, 3] (new Nat.succ) ∧
    (enque_vec [1, 2, 3] (new Nat.succ)).inqueue = [] ++ [1, 2, 3] :=
  enque_vec_refines_spec [1, 2, 3] (new Nat.succ)

/-! Claim C6: the freshly constructed queue. -/

/-- C6: `new f` yields empty input and output buffers, no worker handle, no
spawned worker, and the liveness flag `thread_dead = true`; moreover `join`
on this fresh queue completes immediately in its very first step (reading
`thread_dead = true`), changing nothing but the ghost call record. -/
theorem new_idle (f : I → O) :
    (new f).inqueue = [] ∧ (new f).outqueue = [] ∧
    (new f).thread_handle = none ∧ (new f).thread_dead = true ∧
    (new f).workers = [] ∧
    LStep (new f) .callJoin { new f with calls := [.cJoin] } ∧
    (∀ s', LStep (new f) .callJoin s' → s' = { new f with calls := [.cJoin] }) := by
  refine ⟨rfl, rfl, rfl, rfl, rfl, ?_, ?_⟩
  · exact LStep.callJoinDead (new f) rfl rfl
  · intro s' h
    cases h with
    | callJoinDead h1 h2 => rfl
    | callJoinAlive h1 h2 => simp [new] at h2

/-- Witness for C6 at `f = Nat.succ`, including the immediate-join inversion
applied to the concrete join step. -/
theorem new_idle_witness :
    LStep (new Nat.succ) .callJoin { new Nat.succ with calls := [.cJoin] } ∧
    ({ new Nat.succ with calls := [.cJoin] } : SysState Nat Nat) =
      { new Nat.succ with calls := [.cJoin] } :=
  ⟨(new_idle Nat.succ).2.2.2.2.2.1,
   (new_idle Nat.succ).2.2.2.2.2.2 _ ((new_idle Nat.succ).2.2.2.2.2.1)⟩

/-! Worker-list predicates and the master invariant. -/

/-- Every spawned worker thread has terminated. -/
def NoActive (ws : List (WPhase I)) : Prop := ∀ w ∈ ws, w = .terminated

/-- At most one spawned worker thread has not terminated. -/
def AtMostOne (ws : List (WPhase I)) : Prop :=
  ∀ (i j : Nat) (wi wj : WPhase I), ws[i]? = some wi → ws[j]? = some wj →
    wi ≠ .terminated → wj ≠ .terminated → i = j

/-- Every spawned worker thread other than `wid` has terminated. -/
def OthersTerminated (ws : List (WPhase I)) (wid : Nat) : Prop :=
  ∀ (j : Nat) (wj : WPhase I), ws[j]? = some wj → j ≠ wid → wj = .terminated

/-- Input item currently held by a worker in this phase (popped from the
inqueue, its transform not yet pushed to the outqueue). -/
def phaseItems : WPhase I → List I
  | .gotItem x => [x]
  | .invoking x => [x]
  | _ => []

/-- All input items currently in flight inside worker threads, in spawn
order of their holders. -/
def inflightList (ws : List (WPhase I)) : List I := (ws.map phaseItems).flatten

theorem inflightList_nil : inflightList ([] : List (WPhase I)) = [] := rfl

theorem inflightList_cons (w : WPhase I) (ws : List (WPhase I)) :
    inflightList (w :: ws) = phaseItems w ++ inflightList ws := by
  simp [inflightList]

theorem inflightList_append (a b : List (WPhase I)) :
    inflightList (a ++ b) = inflightList a ++ inflightList b := by
  simp [inflightList]

theorem NoActive_of_get? {ws : List (WPhase I)}
    (h : ∀ (j : Nat) (wj : WPhase I), ws[j]? = some wj → wj = .terminated) :
    NoActive ws := by
  intro w hw
  obtain ⟨n, hn⟩ := List.mem_iff_getElem?.mp hw
  exact h n w hn

theorem NoActive.inflight_nil {ws : List (WPhase I)} (h : NoActive ws) :
    inflightList ws = [] := by
  induction ws with
  | nil => rfl
  | cons w tl ih =>
    have hw : w = .terminated := h w (by simp)
    have htl : NoActive tl := fun w' hw' => h w' (by simp [hw'])
    rw [inflightList_cons, ih htl, hw]
    rfl

theorem NoActive.inLockFree {ws : List (WPhase I)} (h : NoActive ws)
    {s : SysState I O} (hs : s.workers = ws) : inLockFree s := by
  intro w hw
  rw [hs] at hw
  rw [h w hw]
  rfl

theorem NoActive.outLockFree {ws : List (WPhase I)} (h : NoActive ws)
    {s : SysState I O} (hs : s.workers = ws) : outLockFree s := by
  intro w hw
  rw [hs] at hw
  rw [h w hw]
  rfl

theorem AtMostOne.others {ws : List (WPhase I)} {wid : Nat} {w0 : WPhase I}
    (h : AtMostOne ws) (hw : ws[wid]? = some w0) (h0 : w0 ≠ .terminated) :
    OthersTerminated ws wid := by
  intro j wj hj hne
  by_contra hact
  exact hne (h j wid wj w0 hj hw hact h0)

theorem OthersTerminated.eq_of_active {ws : List (WPhase I)} {wid wid' : Nat}
    {w0 : WPhase I} (h : OthersTerminated ws wid') (hw : ws[wid]? = some w0)
    (h0 : w0 ≠ .terminated) : wid = wid' := by
  by_contra hne
  exact h0 (h wid w0 hw hne)

theorem OthersTerminated.set_self {ws : List (WPhase I)} {wid : Nat}
    (h : OthersTerminated ws wid) (w1 : WPhase I) :
    OthersTerminated (ws.set wid w1) wid := by
  intro j wj hj hne
  rw [List.getElem?_set_ne (fun he => hne he.symm)] at hj
  exact h j wj hj hne

theorem AtMostOne.set {ws : List (WPhase I)} {wid : Nat} {w0 : WPhase I}
    (h : AtMostOne ws) (hw : ws[wid]? = some w0) (h0 : w0 ≠ .terminated)
    (w1 : WPhase I) : AtMostOne (ws.set wid w1) := by
  have hothers := h.others hw h0
  intro i j wi wj hi hj hwi hwj
  by_cases hiw : i = wid
  · by_cases hjw : j = wid
    · rw [hiw, hjw]
    · rw [List.getElem?_set_ne (fun he => hjw he.symm)] at hj
      exact absurd (hothers j wj hj hjw) hwj
  · rw [List.getElem?_set_ne (fun he => hiw he.symm)] at hi
    exact absurd (hothers i wi hi hiw) hwi

theorem NoActive.set_terminated {ws : List (WPhase I)} {wid : Nat} {w0 : WPhase I}
    (h : OthersTerminated ws wid) (hw : ws[wid]? = some w0) :
    NoActive (ws.set wid .terminated) := by
  have hlt : wid < ws.length := (List.getElem?_eq_some.mp hw).1
  apply NoActive_of_get?
  intro j wj hj
  by_cases hjw : j = wid
  · subst hjw
    rw [List.getElem?_set_eq_of_lt _ hlt] at hj
    exact (Option.some_inj.mp hj).symm
  · rw [List.getElem?_set_ne (fun he => hjw he.symm)] at hj
    exact h j wj hj hjw

theorem inflight_of_others {ws : List (WPhase I)} {wid : Nat} {w0 : WPhase I}
    (h : OthersTerminated ws wid) (hw : ws[wid]? = some w0) (w1 : WPhase I) :
    inflightList ws = phaseItems w0 ∧
    inflightList (ws.set wid w1) = phaseItems w1 := by
  induction ws generalizing wid with
  | nil => simp at hw
  | cons a tl ih =>
    cases wid with
    | zero =>
      have ha : a = w0 := by simpa using hw
      have htl : NoActive tl := by
        apply NoActive_of_get?
        intro j wj hj
        exact h (j + 1) wj (by simpa using hj) (by simp)
      subst ha
      constructor
      · rw [inflightList_cons, htl.inflight_nil, List.append_nil]
      · rw [List.set]
        rw [inflightList_cons, htl.inflight_nil, List.append_nil]
    | succ n =>
      have ha : a = .terminated := h 0 a (by simp) (by simp)
      have htl : OthersTerminated tl n := by
        intro j wj hj hne
        exact h (j + 1) wj (by simpa using hj) (by simpa using hne)
      have hw' : tl[n]? = some w0 := by simpa using hw
      obtain ⟨h1, h2⟩ := ih htl hw'
      constructor
      · rw [inflightList_cons, h1, ha]
        rfl
      · rw [List.set]
        rw [inflightList_cons, h2, ha]
        rfl

/-- Master invariant of the transition system, proved for every reachable
state: flag/worker consistency (`thread_dead = true` implies no active
worker; during `create_thread` the flag is already false and no worker is
active), at most one active worker, the worker waited on by `join` and the
worker named by `thread_handle` are the only possibly-active ones, and
conservation of items: everything ever popped from the outqueue followed by
the current outqueue is the image of the processed inputs, and everything
ever enqueued is processed, in flight inside the worker, or still pending. -/
def Inv (s : SysState I O) : Prop :=
  (s.pctl = .spawning → s.thread_dead = false ∧ NoActive s.workers) ∧
  (s.thread_dead = true → NoActive s.workers) ∧
  AtMostOne s.workers ∧
  (∀ wid, s.pctl = .joining wid → OthersTerminated s.workers wid) ∧
  (∀ wid, s.thread_handle = some wid → OthersTerminated s.workers wid) ∧
  s.consumed ++ s.outqueue = s.done.map s.function ∧
  s.log = s.done ++ inflightList s.workers ++ s.inqueue

theorem inv_new (f : I → O) : Inv (new f) := by
  refine ⟨?_, ?_, ?_, ?_, ?_, rfl, rfl⟩
  · intro h; simp [new] at h
  · intro _ w hw; simp [new] at hw
  · intro i j wi wj hi _ _ _; simp [new] at hi
  · intro wid h; simp [new] at h
  · intro wid h; simp [new] at h

theorem OthersTerminated_concat {ws : List (WPhase I)} (hna : NoActive ws)
    (a : WPhase I) : OthersTerminated (ws ++ [a]) ws.length := by
  intro j wj hj hne
  have hjlt : j < ws.length + 1 := by
    have := (List.getElem?_eq_some.mp hj).1
    simpa using this
  have hjlt' : j < ws.length := by omega
  rw [List.getElem?_append_left hjlt'] at hj
  exact hna wj (List.getElem?_mem hj)

theorem AtMostOne_concat {ws : List (WPhase I)} (hna : NoActive ws)
    (a : WPhase I) : AtMostOne (ws ++ [a]) := by
  have key : ∀ (i : Nat) (wi : WPhase I), (ws ++ [a])[i]? = some wi →
      wi ≠ .terminated → i = ws.length := by
    intro i wi hi hact
    by_contra hne
    exact hact (OthersTerminated_concat hna a i wi hi hne)
  intro i j wi wj hi hj hwi hwj
  rw [key i wi hi hwi, key j wj hj hwj]

/-- Preservation of the master invariant by every step. -/
theorem Inv.inv_preserved {s s' : SysState I O} {l : SLabel I}
    (hInv : Inv s) (h : LStep s l s') : Inv s' := by
  obtain ⟨i1, i2, i3, i4, i5, i6, i7⟩ := hInv
  cases h with
  | callEnque x h1 h2 =>
    refine ⟨fun hc => ?_, i2, i3, fun wid hc => ?_, i5, i6, ?_⟩
    · simp [pushBack] at hc
    · simp [pushBack] at hc
    · show s.log ++ [x] = s.done ++ inflightList s.workers ++ (s.inqueue ++ [x])
      rw [i7]
      exact (List.append_assoc _ _ _)
  | callEnqueVec xs h1 =>
    refine ⟨fun hc => ?_, i2, i3, fun wid hc => ?_, i5, i6, i7⟩
    · simp at hc
    · simp at hc
  | pushStep x rest h1 h2 =>
    refine ⟨fun hc => ?_, i2, i3, fun wid hc => ?_, i5, i6, ?_⟩
    · simp [pushBack] at hc
    · simp [pushBack] at hc
    · show s.log ++ [x] = s.done ++ inflightList s.workers ++ (s.inqueue ++ [x])
      rw [i7]
      exact (List.append_assoc _ _ _)
  | pushDone h1 =>
    refine ⟨fun hc => ?_, i2, i3, fun wid hc => ?_, i5, i6, i7⟩
    · simp at hc
    · simp at hc
  | checkDeadTrue h1 h2 =>
    refine ⟨fun _ => ⟨rfl, i2 h2⟩, fun hc => ?_, i3, fun wid hc => ?_, i5, i6, i7⟩
    · simp at hc
    · simp at hc
  | checkDeadFalse h1 h2 =>
    refine ⟨fun hc => ?_, i2, i3, fun wid hc => ?_, i5, i6, i7⟩
    · simp at hc
    · simp at hc
  | spawnStep h1 =>
    obtain ⟨hdead, hna⟩ := i1 h1
    refine ⟨fun hc => ?_, fun hc => ?_, AtMostOne_concat hna _, fun wid hc => ?_,
           fun wid hc => ?_, i6, ?_⟩
    · simp at hc
    · rw [hdead] at hc
      exact absurd hc (by simp)
    · simp at hc
    · have : wid = s.workers.length := by simpa using hc.symm
      rw [this]
      exact OthersTerminated_concat hna _
    · show s.log = s.done ++ inflightList (s.workers ++ [.atHead]) ++ s.inqueue
      rw [inflightList_append]
      simpa [inflightList, phaseItems] using i7
  | callJoinDead h1 h2 =>
    exact ⟨i1, i2, i3, i4, i5, i6, i7⟩
  | callJoinAlive h1 h2 =>
    refine ⟨fun hc => ?_, i2, i3, fun wid hc => ?_, i5, i6, i7⟩
    · simp at hc
    · simp at hc
  | swapSome wid h1 h2 =>
    refine ⟨fun hc => ?_, i2, i3, fun wid' hc => ?_, fun wid' hc => ?_, i6, i7⟩
    · simp at hc
    · have : wid' = wid := by
        have : PCtl.joining (I := I) wid = .joining wid' := hc
        cases this
        rfl
      rw [this]
      exact i5 wid h2
    · simp at hc
  | swapNone h1 h2 =>
    refine ⟨fun hc => ?_, i2, i3, fun wid' hc => ?_, i5, i6, i7⟩
    · simp at hc
    · simp at hc
  | joinWait wid h1 h2 =>
    refine ⟨fun hc => ?_, i2, i3, fun wid' hc => ?_, i5, i6, i7⟩
    · simp at hc
    · simp at hc
  | callPop h1 h2 =>
    rcases hq : s.outqueue with _ | ⟨y, rest⟩
    · refine ⟨?_, ?_, ?_, ?_, ?_, ?_, ?_⟩ <;>
        simp only [popCall, popFn, hq] <;>
        first
          | exact i1
          | exact i2
          | exact i3
          | exact i4
          | exact i5
          | (rw [← hq]; exact i6)
          | exact i7
    · refine ⟨?_, ?_, ?_, ?_, ?_, ?_, ?_⟩ <;>
        simp only [popCall, popFn, hq]
      · exact i1
      · exact i2
      · exact i3
      · exact i4
      · exact i5
      · show (s.consumed ++ [y]) ++ rest = s.done.map s.function
        rw [hq] at i6
        rw [← i6, List.append_assoc]
        rfl
      · exact i7
  | wPop wid x rest hw hinq hfree =>
    have hact : WPhase.gotItem x ≠ WPhase.terminated := by simp
    have hact0 : WPhase.atHead (I := I) ≠ .terminated := by simp
    have hOthers : OthersTerminated s.workers wid := i3.others hw hact0
    obtain ⟨hIf, hIfSet⟩ := inflight_of_others hOthers hw (.gotItem x)
    refine ⟨fun hc => ?_, fun hc => ?_, i3.set hw hact0 _, fun wid' hc => ?_,
           fun wid' hc => ?_, i6, ?_⟩
    · obtain ⟨_, hna⟩ := i1 hc
      exact absurd (hna _ (List.getElem?_mem hw)) hact0
    · exact absurd (i2 hc _ (List.getElem?_mem hw)) hact0
    · have h4 := i4 wid' hc
      have : wid = wid' := h4.eq_of_active hw hact0
      rw [← this]
      exact (this ▸ h4).set_self _
    · have h5 := i5 wid' hc
      have : wid = wid' := h5.eq_of_active hw hact0
      rw [← this]
      exact (this ▸ h5).set_self _
    · show s.log = s.done ++ inflightList (s.workers.set wid (.gotItem x)) ++ rest
      rw [hIfSet]
      rw [i7, hIf, hinq]
      simp [phaseItems]
  | wExit wid hw hinq hfree =>
    have hact0 : WPhase.atHead (I := I) ≠ .terminated := by simp
    have hOthers : OthersTerminated s.workers wid := i3.others hw hact0
    obtain ⟨hIf, hIfSet⟩ := inflight_of_others hOthers hw .exiting
    refine ⟨fun hc => ?_, fun hc => ?_, i3.set hw hact0 _, fun wid' hc => ?_,
           fun wid' hc => ?_, i6, ?_⟩
    · obtain ⟨_, hna⟩ := i1 hc
      exact absurd (hna _ (List.getElem?_mem hw)) hact0
    · exact absurd (i2 hc _ (List.getElem?_mem hw)) hact0
    · have h4 := i4 wid' hc
      have : wid = wid' := h4.eq_of_active hw hact0
      rw [← this]
      exact (this ▸ h4).set_self _
    · have h5 := i5 wid' hc
      have : wid = wid' := h5.eq_of_active hw hact0
      rw [← this]
      exact (this ▸ h5).set_self _
    · show s.log = s.done ++ inflightList (s.workers.set wid .exiting) ++ s.inqueue
      rw [hIfSet]
      rw [i7, hIf]
      simp [phaseItems]
  | wLockOut wid x hw hfree =>
    have hact0 : WPhase.gotItem x ≠ WPhase.terminated := by simp
    have hOthers : OthersTerminated s.workers wid := i3.others hw hact0
    obtain ⟨hIf, hIfSet⟩ := inflight_of_others hOthers hw (.invoking x)
    refine ⟨fun hc => ?_, fun hc => ?_, i3.set hw hact0 _, fun wid' hc => ?_,
           fun wid' hc => ?_, i6, ?_⟩
    · obtain ⟨_, hna⟩ := i1 hc
      exact absurd (hna _ (List.getElem?_mem hw)) hact0
    · exact absurd (i2 hc _ (List.getElem?_mem hw)) hact0
    · have h4 := i4 wid' hc
      have : wid = wid' := h4.eq_of_active hw hact0
      rw [← this]
      exact (this ▸ h4).set_self _
    · have h5 := i5 wid' hc
      have : wid = wid' := h5.eq_of_active hw hact0
      rw [← this]
      exact (this ▸ h5).set_self _
    · show s.log = s.done ++ inflightList (s.workers.set wid (.invoking x)) ++ s.inqueue
      rw [hIfSet]
      rw [i7, hIf]
      simp [phaseItems]
  | wApply wid x hw =>
    have hact0 : WPhase.invoking x ≠ WPhase.terminated := by simp
    have hOthers : OthersTerminated s.workers wid := i3.others hw hact0
    obtain ⟨hIf, hIfSet⟩ := inflight_of_others hOthers hw .atHead
    refine ⟨fun hc => ?_, fun hc => ?_, i3.set hw hact0 _, fun wid' hc => ?_,
           fun wid' hc => ?_, ?_, ?_⟩
    · obtain ⟨_, hna⟩ := i1 hc
      exact absurd (hna _ (List.getElem?_mem hw)) hact0
    · exact absurd (i2 hc _ (List.getElem?_mem hw)) hact0
    · have h4 := i4 wid' hc
      have : wid = wid' := h4.eq_of_active hw hact0
      rw [← this]
      exact (this ▸ h4).set_self _
    · have h5 := i5 wid' hc
      have : wid = wid' := h5.eq_of_active hw hact0
      rw [← this]
      exact (this ▸ h5).set_self _
    · show s.consumed ++ (s.outqueue ++ [s.function x]) =
        (s.done ++ [x]).map s.function
      rw [List.map_append, ← List.append_assoc, i6]
      rfl
    · show s.log = (s.done ++ [x]) ++ inflightList (s.workers.set wid .atHead) ++ s.inqueue
      rw [hIfSet]
      rw [i7, hIf]
      simp [phaseItems]
  | wDie wid hw =>
    have hact0 : WPhase.exiting (I := I) ≠ .terminated := by simp
    have hOthers : OthersTerminated s.workers wid := i3.others hw hact0
    obtain ⟨hIf, hIfSet⟩ := inflight_of_others hOthers hw .terminated
    refine ⟨fun hc => ?_, fun _ => ?_, i3.set hw hact0 _, fun wid' hc => ?_,
           fun wid' hc => ?_, i6, ?_⟩
    · obtain ⟨_, hna⟩ := i1 hc
      exact absurd (hna _ (List.getElem?_mem hw)) hact0
    · exact NoActive.set_terminated hOthers hw
    · have h4 := i4 wid' hc
      have : wid = wid' := h4.eq_of_active hw hact0
      rw [← this]
      exact (this ▸ h4).set_self _
    · have h5 := i5 wid' hc
      have : wid = wid' := h5.eq_of_active hw hact0
      rw [← this]
      exact (this ▸ h5).set_self _
    · show s.log = s.done ++ inflightList (s.workers.set wid .terminated) ++ s.inqueue
      rw [hIfSet]
      rw [i7, hIf]
      simp [phaseItems]

/-- The master invariant holds along every trace from an invariant state. -/
theorem Inv.inv_holds_along {s s' : SysState I O} {tr : List (SLabel I)}
    (h : Trace s tr s') (hInv : Inv s) : Inv s' := by
  induction h with
  | nil => exact hInv
  | cons hstep _ ih => exact ih (hInv.inv_preserved hstep)

/-- Every state reachable from a fresh queue satisfies the master invariant. -/
theorem inv_reachable {f : I → O} {tr : List (SLabel I)} {s : SysState I O}
    (h : Trace (new f) tr s) : Inv s :=
  Inv.inv_holds_along h (inv_new f)

/-! Claim C8: at most one active worker. -/

/-- C8: in every state reachable from a fresh queue, under any interleaving
of (serialized) producer calls and worker steps, at most one worker
execution context is active (non-terminated). -/
theorem at_most_one_active_worker (f : I → O) (tr : List (SLabel I))
    (s : SysState I O) (h : Trace (new f) tr s) : AtMostOne s.workers :=
  (inv_reachable h).2.2.1

/-! Concrete states and traces used by witnesses and counterexamples. -/

/-- State after `enque 1` on a fresh queue has pushed and spawned: one
worker in phase `atHead`. -/
def S3 : SysState Nat Nat :=
  { function := Nat.succ, thread_handle := some 0, outqueue := [],
    inqueue := [1], thread_dead := false, workers := [.atHead],
    pctl := .idle, log := [1], done := [], consumed := [],
    calls := [.cEnque 1] }

theorem trace_to_S3 :
    Trace (new Nat.succ) [.callEnque 1, .checkDead, .spawnStep] S3 :=
  .cons (.callEnque _ 1 rfl (by decide))
    (.cons (.checkDeadTrue _ rfl rfl)
      (.cons (.spawnStep _ rfl)
        (.nil _)))

/-- State in which the worker has popped `1` and acquired the outqueue lock:
it is about to invoke the transformation while holding both locks. -/
def S5 : SysState Nat Nat :=
  { function := Nat.succ, thread_handle := some 0, outqueue := [],
    inqueue := [], thread_dead := false, workers := [.invoking 1],
    pctl := .idle, log := [1], done := [], consumed := [],
    calls := [.cEnque 1] }

theorem trace_to_S5 :
    Trace (new Nat.succ)
      [.callEnque 1, .checkDead, .spawnStep, .wPop 0, .wLockOut 0] S5 :=
  .cons (.callEnque _ 1 rfl (by decide))
    (.cons (.checkDeadTrue _ rfl rfl)
      (.cons (.spawnStep _ rfl)
        (.cons (.wPop _ 0 1 [] rfl rfl (by decide))
          (.cons (.wLockOut _ 0 1 rfl (by decide))
            (.nil _)))))

/-- Witness for C8: a concrete reachable state with one active worker. -/
theorem at_most_one_active_worker_witness : AtMostOne S5.workers :=
  at_most_one_active_worker Nat.succ _ S5 trace_to_S5

/-! Claim C9: which locks the worker holds while invoking the
transformation function. -/

/-- Counterexample to C9 as stated: it is not the case that a worker about
to invoke the transformation function (phase `invoking`) holds no lock.
In the reachable state `S5` the worker holds both the inqueue lock (the
`while let` scrutinee guard lives for the whole loop body) and the outqueue
lock (the `push_back` receiver is evaluated before its argument
`func_clone(data)`). -/
theorem worker_lock_counterexample :
    ¬ (∀ (tr : List (SLabel Nat)) (s : SysState Nat Nat) (wid x : Nat),
        Trace (new Nat.succ) tr s → s.workers[wid]? = some (.invoking x) →
        ¬ inLockHeld s ∧ ¬ outLockHeld s) := by
  intro hclaim
  obtain ⟨hIn, _⟩ := hclaim _ S5 0 1 trace_to_S5 rfl
  exact hIn ⟨.invoking 1, by simp [S5], rfl⟩

/-- C9, amended: at the step that invokes the transformation function
(`wApply`), the worker holds both the inqueue lock and the outqueue lock;
consequently, at that instant a producer can neither complete a `pop` (it
would block on the outqueue mutex) nor start an `enque` (it would block on
the inqueue mutex). -/
theorem worker_lock_during_invoke (s s' : SysState I O) (wid : Nat)
    (h : LStep s (.wApply wid) s') :
    ∃ x, s.workers[wid]? = some (.invoking x) ∧ inLockHeld s ∧ outLockHeld s ∧
      (∀ s'', ¬ LStep s .callPop s'') ∧
      (∀ (y : I) (s'' : SysState I O), ¬ LStep s (.callEnque y) s'') := by
  cases h with
  | wApply wid x hw =>
    refine ⟨x, hw, ⟨_, List.getElem?_mem hw, rfl⟩, ⟨_, List.getElem?_mem hw, rfl⟩, ?_, ?_⟩
    · intro s'' h''
      cases h'' with
      | callPop h1 h2 =>
        have := h2 _ (List.getElem?_mem hw)
        simp [holdsOutLock] at this
    · intro y s'' h''
      cases h'' with
      | callEnque y h1 h2 =>
        have := h2 _ (List.getElem?_mem hw)
        simp [holdsInLock] at this

/-- Witness for the amended C9 at the concrete state `S5`. -/
theorem worker_lock_during_invoke_witness :
    ∃ x, S5.workers[0]? = some (.invoking x) ∧ inLockHeld S5 ∧ outLockHeld S5 ∧
      (∀ s'', ¬ LStep S5 .callPop s'') ∧
      (∀ (y : Nat) (s'' : SysState Nat Nat), ¬ LStep S5 (.callEnque y) s'') :=
  worker_lock_during_invoke S5 _ 0 (.wApply _ 0 1 rfl)

/-! Claim C10: the frame of `join`. -/

/-- C10: no step of `join` modifies the input buffer, the output buffer, the
liveness flag or the workers.  The entry step (`callJoin`) leaves even the
handle slot untouched, and when the flag reads dead it changes nothing at
all (even a stale handle stays in place, and the call is already complete).
The swap step is the only state change: it empties the handle slot.  The
wait step changes nothing. -/
theorem join_frame :
    (∀ (s s' : SysState I O), LStep s .callJoin s' →
       s'.inqueue = s.inqueue ∧ s'.outqueue = s.outqueue ∧
       s'.thread_dead = s.thread_dead ∧ s'.workers = s.workers ∧
       s'.thread_handle = s.thread_handle ∧
       (s.thread_dead = true → s' = { s with calls := s.calls ++ [.cJoin] })) ∧
    (∀ (s s' : SysState I O), LStep s .swapStep s' →
       s'.inqueue = s.inqueue ∧ s'.outqueue = s.outqueue ∧
       s'.thread_dead = s.thread_dead ∧ s'.workers = s.workers ∧
       s'.thread_handle = none) ∧
    (∀ (s s' : SysState I O), LStep s .joinWait s' →
       s' = { s with pctl := .idle }) := by
  refine ⟨?_, ?_, ?_⟩
  · intro s s' h
    cases h with
    | callJoinDead h1 h2 => exact ⟨rfl, rfl, rfl, rfl, rfl, fun _ => rfl⟩
    | callJoinAlive h1 h2 =>
      refine ⟨rfl, rfl, rfl, rfl, rfl, fun hc => ?_⟩
      rw [h2] at hc
      exact absurd hc (by simp)
  · intro s s' h
    cases h with
    | swapSome wid h1 h2 => exact ⟨rfl, rfl, rfl, rfl, rfl⟩
    | swapNone h1 h2 => exact ⟨rfl, rfl, rfl, rfl, h2⟩
  · intro s s' h
    cases h with
    | joinWait wid h1 h2 => rfl

/-- Witness for C10: the join entry step on the fresh queue, with the frame
equalities evaluated there. -/
theorem join_frame_witness :
    ({ new Nat.succ with calls := [CallRec.cJoin] } : SysState Nat Nat).inqueue =
        (new Nat.succ).inqueue ∧
    ({ new Nat.succ with calls := [CallRec.cJoin] } : SysState Nat Nat).outqueue =
        (new Nat.succ).outqueue ∧
    ({ new Nat.succ with calls := [CallRec.cJoin] } : SysState Nat Nat).thread_dead =
        (new Nat.succ).thread_dead ∧
    ({ new Nat.succ with calls := [CallRec.cJoin] } : SysState Nat Nat).workers =
        (new Nat.succ).workers ∧
    ({ new Nat.succ with calls := [CallRec.cJoin] } : SysState Nat Nat).thread_handle =
        (new Nat.succ).thread_handle ∧
    ((new Nat.succ).thread_dead = true →
      ({ new Nat.succ with calls := [CallRec.cJoin] } : SysState Nat Nat) =
        { new Nat.succ with calls := (new Nat.succ).calls ++ [CallRec.cJoin] }) :=
  (join_frame (I := Nat) (O := Nat)).1 (new Nat.succ) _
    (.callJoinDead _ rfl rfl)

/-! Running a lone worker to completion. -/

theorem forall_mem_of_others {ws : List (WPhase I)} {wid : Nat} {w0 : WPhase I}
    {P : WPhase I → Prop} (hO : OthersTerminated ws wid) (hw : ws[wid]? = some w0)
    (h0 : P w0) (hterm : P .terminated) : ∀ w ∈ ws, P w := by
  intro w hmem
  obtain ⟨j, hj⟩ := List.mem_iff_getElem?.mp hmem
  by_cases hjw : j = wid
  · subst hjw
    rw [hj] at hw
    rw [Option.some_inj.mp hw]
    exact h0
  · rw [hO j w hj hjw]
    exact hterm

/-- A lone live worker in phase `atHead` can always run to completion: it
drains the inqueue in FIFO order, appends the transforms to the outqueue in
the same order, terminates and stores `thread_dead = true`; nothing else
changes. -/
theorem run_worker (l : List I) : ∀ (s : SysState I O) (wid : Nat),
    s.inqueue = l →
    s.workers[wid]? = some .atHead →
    OthersTerminated s.workers wid →
    ∃ tr s', Trace s tr s' ∧
      s'.inqueue = [] ∧
      s'.outqueue = s.outqueue ++ s.inqueue.map s.function ∧
      s'.workers = s.workers.set wid .terminated ∧
      s'.thread_dead = true ∧
      s'.pctl = s.pctl ∧
      s'.thread_handle = s.thread_handle ∧
      s'.function = s.function ∧
      s'.calls = s.calls ∧
      s'.log = s.log ∧
      s'.consumed = s.consumed := by
  induction l with
  | nil =>
    intro s wid hinq hw hO
    have hlt : wid < s.workers.length := (List.getElem?_eq_some.mp hw).1
    have hfree : inLockFree s :=
      forall_mem_of_others hO hw rfl rfl
    refine ⟨[.wExit wid, .wDie wid], _,
      .cons (.wExit s wid hw hinq hfree)
        (.cons (.wDie _ wid (List.getElem?_set_eq_of_lt _ hlt)) (.nil _)),
      hinq, ?_, ?_, rfl, rfl, rfl, rfl, rfl, rfl, rfl⟩
    · rw [hinq]
      simp
    · show (s.workers.set wid .exiting).set wid .terminated = s.workers.set wid .terminated
      exact List.set_set _ _ _ _
  | cons x rest ih =>
    intro s wid hinq hw hO
    have hlt : wid < s.workers.length := (List.getElem?_eq_some.mp hw).1
    have hfreeIn : inLockFree s :=
      forall_mem_of_others hO hw rfl rfl
    have hw1 : (s.workers.set wid (.gotItem x))[wid]? = some (.gotItem x) :=
      List.getElem?_set_eq_of_lt _ hlt
    have hO1 : OthersTerminated (s.workers.set wid (.gotItem x)) wid :=
      hO.set_self _
    have hfreeOut : outLockFree
        { s with inqueue := rest, workers := s.workers.set wid (.gotItem x) } :=
      forall_mem_of_others hO1 hw1 rfl rfl
    have hlt2 : wid < (s.workers.set wid (.gotItem x)).length := by
      simpa using hlt
    have hw2 : ((s.workers.set wid (.gotItem x)).set wid (.invoking x))[wid]? =
        some (.invoking x) :=
      List.getElem?_set_eq_of_lt _ hlt2
    -- state after wPop, wLockOut, wApply
    obtain ⟨tr', s', htr', hq1, hq2, hq3, hq4, hq5, hq6, hq7, hq8, hq9, hq10⟩ :=
      ih { s with
            inqueue := rest,
            outqueue := s.outqueue ++ [s.function x],
            done := s.done ++ [x],
            workers := ((s.workers.set wid (.gotItem x)).set wid
              (.invoking x)).set wid .atHead }
        wid rfl
        (by
          rw [List.set_set, List.set_set]
          exact List.getElem?_set_eq_of_lt _ hlt)
        (by
          rw [List.set_set, List.set_set]
          exact hO.set_self _)
    refine ⟨.wPop wid :: .wLockOut wid :: .wApply wid :: tr', s',
      .cons (.wPop s wid x rest hw hinq hfreeIn)
        (.cons (.wLockOut _ wid x hw1 hfreeOut)
          (.cons (.wApply _ wid x hw2) htr')), hq1, ?_, ?_, hq4, hq5, hq6, hq7,
        hq8, hq9, hq10⟩
    · rw [hq2, hinq]
      simp [List.append_assoc]
    · rw [hq3, List.set_set, List.set_set, List.set_set]

/-! Claim C7: auto-respawn after the worker has died. -/

/-- C7: from any reachable state whose liveness flag reads dead (with the
producer idle), an `enque x` performs the spawn-if-dead protocol: the push,
then the `checkDead` step reads dead and clears the flag to alive
(`thread_dead = false`), then `spawnStep` records the fresh worker's handle;
from there the new worker can run to completion on its own, transforming all
pending items including the newly enqueued one, in FIFO order. -/
theorem auto_respawn (f : I → O) (tr : List (SLabel I)) (s : SysState I O) (x : I)
    (h : Trace (new f) tr s) (hidle : s.pctl = .idle)
    (hdead : s.thread_dead = true) :
    ∃ s1 s2 s3 tr4 s4,
      LStep s (.callEnque x) s1 ∧
      LStep s1 .checkDead s2 ∧ s2.thread_dead = false ∧ s2.pctl = .spawning ∧
      LStep s2 .spawnStep s3 ∧
      s3.thread_handle = some s.workers.length ∧
      s3.workers[s.workers.length]? = some .atHead ∧
      s3.thread_dead = false ∧
      Trace s3 tr4 s4 ∧
      s4.inqueue = [] ∧
      s4.outqueue = s.outqueue ++ (s.inqueue ++ [x]).map f ∧
      s4.thread_dead = true := by
  have hna : NoActive s.workers := (inv_reachable h).2.1 hdead
  have hf : s.function = f := h.function_const
  obtain ⟨tr4, s4, htr4, hq1, hq2, hq3, hq4, _, _, _, _, _, _⟩ :=
    run_worker (s.inqueue ++ [x])
      { pushBack x s with
          pctl := .idle
          calls := s.calls ++ [.cEnque x]
          thread_dead := false
          workers := s.workers ++ [.atHead]
          thread_handle := some s.workers.length }
      s.workers.length rfl
      (List.getElem?_concat_length _ _)
      (OthersTerminated_concat hna _)
  refine ⟨_, _, _, tr4, s4,
    .callEnque s x hidle (hna.inLockFree rfl),
    .checkDeadTrue _ rfl hdead,
    rfl, rfl,
    .spawnStep _ rfl,
    rfl, List.getElem?_concat_length _ _, rfl, htr4, hq1, ?_, hq4⟩
  rw [hq2, ← hf]
  rfl

/-- Witness for C7: the fresh queue is dead and idle; enqueuing `5` spawns a
worker that processes it. -/
theorem auto_respawn_witness :
    ∃ s1 s2 s3 tr4 s4,
      LStep (new Nat.succ) (.callEnque 5) s1 ∧
      LStep s1 .checkDead s2 ∧ s2.thread_dead = false ∧ s2.pctl = .spawning ∧
      LStep s2 .spawnStep s3 ∧
      s3.thread_handle = some (new Nat.succ).workers.length ∧
      s3.workers[(new Nat.succ).workers.length]? = some .atHead ∧
      s3.thread_dead = false ∧
      Trace s3 tr4 s4 ∧
      s4.inqueue = [] ∧
      s4.outqueue = (new Nat.succ).outqueue ++
        ((new Nat.succ).inqueue ++ [5]).map Nat.succ ∧
      s4.thread_dead = true :=
  auto_respawn Nat.succ [] (new Nat.succ) 5 (.nil _) rfl rfl

/-! Claim C5: semantics of `join`. -/

/-- C5, amended: `join` on a reachable state behaves as follows.  If the
liveness flag reads dead, the call completes immediately in its entry step,
changing nothing (`callJoinDead` is the only possible step).  If the flag
reads alive, the entry step proceeds to the handle swap, the swap leaves no
handle behind, and the wait step is enabled only once the awaited worker
has terminated.  Whenever `join` completes (immediately or after waiting),
every spawned worker has terminated and the conservation invariant yields:
the values popped so far followed by the output buffer are exactly the
transforms of the processed inputs in FIFO order, and every input ever
enqueued is either processed or still sitting in the input buffer (an item
enqueued while the worker was exiting may remain pending — see the
counterexample to the unamended claim). -/
theorem join_semantics (f : I → O) (tr : List (SLabel I)) (s : SysState I O)
    (h : Trace (new f) tr s) :
    (s.thread_dead = true → s.pctl = .idle →
       LStep s .callJoin { s with calls := s.calls ++ [.cJoin] } ∧
       ∀ s', LStep s .callJoin s' → s' = { s with calls := s.calls ++ [.cJoin] }) ∧
    (s.thread_dead = false → ∀ s', LStep s .callJoin s' → s'.pctl = .swapping) ∧
    (∀ s', LStep s .swapStep s' → s'.thread_handle = none) ∧
    (∀ wid s', s.pctl = .joining wid → LStep s .joinWait s' →
       s.workers[wid]? = some .terminated) ∧
    (∀ s', LStep s .callJoin s' → s'.pctl = .idle →
       NoActive s'.workers ∧
       s'.consumed ++ s'.outqueue = s'.done.map s'.function ∧
       s'.log = s'.done ++ s'.inqueue) ∧
    (∀ s', LStep s .joinWait s' →
       NoActive s'.workers ∧
       s'.consumed ++ s'.outqueue = s'.done.map s'.function ∧
       s'.log = s'.done ++ s'.inqueue) := by
  obtain ⟨i1, i2, i3, i4, i5, i6, i7⟩ := inv_reachable h
  refine ⟨?_, ?_, ?_, ?_, ?_, ?_⟩
  · intro hdead hidle
    refine ⟨.callJoinDead s hidle hdead, ?_⟩
    intro s' hstep
    cases hstep with
    | callJoinDead h1 h2 => rfl
    | callJoinAlive h1 h2 => rw [hdead] at h2; exact absurd h2 (by simp)
  · intro halive s' hstep
    cases hstep with
    | callJoinDead h1 h2 => rw [halive] at h2; exact absurd h2 (by simp)
    | callJoinAlive h1 h2 => rfl
  · intro s' hstep
    cases hstep with
    | swapSome wid h1 h2 => rfl
    | swapNone h1 h2 => exact h2
  · intro wid s' hjoin hstep
    cases hstep with
    | joinWait wid' h1 h2 =>
      rw [hjoin] at h1
      cases h1
      exact h2
  · intro s' hstep hidle
    cases hstep with
    | callJoinDead h1 h2 =>
      have hna : NoActive s.workers := i2 h2
      exact ⟨hna, i6, by rw [i7, hna.inflight_nil]; simp⟩
    | callJoinAlive h1 h2 => exact absurd hidle (by simp)
  · intro s' hstep
    cases hstep with
    | joinWait wid h1 h2 =>
      have hO : OthersTerminated s.workers wid := i4 wid h1
      have hna : NoActive s.workers := by
        apply NoActive_of_get?
        intro j wj hj
        by_cases hjw : j = wid
        · subst hjw
          rw [hj] at h2
          exact Option.some_inj.mp h2
        · exact hO j wj hj hjw
      exact ⟨hna, i6, by rw [i7, hna.inflight_nil]; simp⟩

/-- Witness for the amended C5: the immediate-return branch of `join` on the
fresh (dead, idle) queue. -/
theorem join_semantics_witness :
    LStep (new Nat.succ) .callJoin { new Nat.succ with calls := [CallRec.cJoin] } :=
  ((join_semantics Nat.succ [] (new Nat.succ) (.nil _)).1 rfl rfl).1

/-- State reached by the lost-wakeup interleaving: `enque 1` spawned a
worker which processed `1` and checked the inqueue empty (phase `exiting`);
then `enque 2` pushed and read the liveness flag still false (so it did not
spawn); then the worker stored `thread_dead = true` and terminated.  Item
`2` is stuck in the input buffer although the flag reads dead. -/
def S10 : SysState Nat Nat :=
  { function := Nat.succ, thread_handle := some 0, outqueue := [2],
    inqueue := [2], thread_dead := true, workers := [.terminated],
    pctl := .idle, log := [1, 2], done := [1], consumed := [],
    calls := [.cEnque 1, .cEnque 2] }

theorem trace_to_S10 :
    Trace (new Nat.succ)
      [.callEnque 1, .checkDead, .spawnStep, .wPop 0, .wLockOut 0, .wApply 0,
       .wExit 0, .callEnque 2, .checkDead, .wDie 0] S10 :=
  .cons (.callEnque _ 1 rfl (by decide))
    (.cons (.checkDeadTrue _ rfl rfl)
      (.cons (.spawnStep _ rfl)
        (.cons (.wPop _ 0 1 [] rfl rfl (by decide))
          (.cons (.wLockOut _ 0 1 rfl (by decide))
            (.cons (.wApply _ 0 1 rfl)
              (.cons (.wExit _ 0 rfl rfl (by decide))
                (.cons (.callEnque _ 2 rfl (by decide))
                  (.cons (.checkDeadFalse _ rfl rfl)
                    (.cons (.wDie _ 0 rfl)
                      (.nil _))))))))))

/-- Counterexample to C5 as stated: it is not the case that, after a `join`
call completes, every item enqueued before the call is present, transformed,
in the output buffer (accounting for values already popped).  In the
reachable state `S10` the join call completes immediately (the flag reads
dead, and no spawn intervenes), yet `log = [1, 2]` while only `succ 1` ever
reached the output buffer: item `2` was enqueued during the worker's exit
window and is still in the input buffer. -/
theorem join_completeness_counterexample :
    ¬ (∀ (tr : List (SLabel Nat)) (s s' : SysState Nat Nat),
        Trace (new Nat.succ) tr s → LStep s .callJoin s' → s'.pctl = .idle →
        s'.log.map Nat.succ = s'.consumed ++ s'.outqueue) := by
  intro hclaim
  have h2 := hclaim _ S10 { S10 with calls := S10.calls ++ [.cJoin] }
    trace_to_S10 (.callJoinDead _ rfl rfl) rfl
  simp [S10] at h2

/-! Scenario machinery for the round-trip claims: a single burst enqueue
(`enque` or `enque_vec`), then `join`, on a fresh queue. -/

/-- Inputs carried by a producer call. -/
def items : CallRec I → List I
  | .cEnque x => [x]
  | .cEnqueVec xs => xs
  | _ => []

/-- The call is a burst enqueue (single-item or batch). -/
def IsBurst : CallRec I → Prop
  | .cEnque _ => True
  | .cEnqueVec _ => True
  | _ => False

theorem singleton_get {w p : WPhase I} {wid : Nat}
    (h : ([w] : List (WPhase I))[wid]? = some p) : wid = 0 ∧ w = p := by
  cases wid with
  | zero => exact ⟨rfl, by simpa using h⟩
  | succ n => simp at h

/-- Progress of the lone worker through the burst `xs`: the outqueue holds
the transforms of the processed prefix, and the phase determines where the
rest of the burst sits. -/
def WProg (f : I → O) (xs : List I) (w : WPhase I) (inq : List I)
    (outq : List O) (dead : Bool) : Prop :=
  ∃ pre post, xs = pre ++ post ∧ outq = pre.map f ∧
    ((w = .atHead ∧ inq = post ∧ dead = false) ∨
     (∃ x p2, post = x :: p2 ∧ inq = p2 ∧
        (w = .gotItem x ∨ w = .invoking x) ∧ dead = false) ∨
     (w = .exiting ∧ post = [] ∧ inq = [] ∧ dead = false) ∨
     (w = .terminated ∧ post = [] ∧ inq = [] ∧ dead = true))

theorem WProg.start (f : I → O) (xs : List I) :
    WProg f xs .atHead xs [] false :=
  ⟨[], xs, rfl, rfl, Or.inl ⟨rfl, rfl, rfl⟩⟩

theorem WProg.pop {f : I → O} {xs inq outq} {dead : Bool} {x : I} {rest : List I}
    (hp : WProg f xs .atHead inq outq dead) (hinq : inq = x :: rest) :
    WProg f xs (.gotItem x) rest outq dead := by
  obtain ⟨pre, post, hxs, houtq, hc⟩ := hp
  rcases hc with ⟨_, hpost, hdead⟩ | ⟨y, p2, _, _, hy, _⟩ | ⟨hph, _, _, _⟩ | ⟨hph, _, _, _⟩
  · refine ⟨pre, post, hxs, houtq, Or.inr (Or.inl ⟨x, rest, ?_, rfl, Or.inl rfl, hdead⟩)⟩
    rw [← hpost, hinq]
  · rcases hy with hy | hy <;> simp at hy
  · simp at hph
  · simp at hph

theorem WProg.lockOut {f : I → O} {xs inq outq} {dead : Bool} {x : I}
    (hp : WProg f xs (.gotItem x) inq outq dead) :
    WProg f xs (.invoking x) inq outq dead := by
  obtain ⟨pre, post, hxs, houtq, hc⟩ := hp
  rcases hc with ⟨hph, _, _⟩ | ⟨y, p2, hpost, hinq, hy, hdead⟩ | ⟨hph, _, _, _⟩ | ⟨hph, _, _, _⟩
  · simp at hph
  · rcases hy with hy | hy
    · have hxy : y = x := by
        have := hy
        simp [WPhase.gotItem.injEq] at this
        exact this.symm
      subst hxy
      exact ⟨pre, post, hxs, houtq,
        Or.inr (Or.inl ⟨y, p2, hpost, hinq, Or.inr rfl, hdead⟩)⟩
    · simp at hy
  · simp at hph
  · simp at hph

theorem WProg.applyStep {f : I → O} {xs inq outq} {dead : Bool} {x : I}
    (hp : WProg f xs (.invoking x) inq outq dead) :
    WProg f xs .atHead inq (outq ++ [f x]) dead := by
  obtain ⟨pre, post, hxs, houtq, hc⟩ := hp
  rcases hc with ⟨hph, _, _⟩ | ⟨y, p2, hpost, hinq, hy, hdead⟩ | ⟨hph, _, _, _⟩ | ⟨hph, _, _, _⟩
  · simp at hph
  · rcases hy with hy | hy
    · simp at hy
    · have hxy : y = x := by
        have := hy
        simp [WPhase.invoking.injEq] at this
        exact this.symm
      subst hxy
      refine ⟨pre ++ [y], p2, ?_, ?_, Or.inl ⟨rfl, hinq, hdead⟩⟩
      · rw [hxs, hpost]
        simp
      · rw [houtq]
        simp
  · simp at hph
  · simp at hph

theorem WProg.exit {f : I → O} {xs inq outq} {dead : Bool}
    (hp : WProg f xs .atHead inq outq dead) (hinq : inq = []) :
    WProg f xs .exiting inq outq dead := by
  obtain ⟨pre, post, hxs, houtq, hc⟩ := hp
  rcases hc with ⟨_, hpost, hdead⟩ | ⟨y, p2, hpost, hinq2, hy, _⟩ | ⟨hph, _, _, _⟩ | ⟨hph, _, _, _⟩
  · refine ⟨pre, post, hxs, houtq, Or.inr (Or.inr (Or.inl ⟨rfl, ?_, hinq, hdead⟩))⟩
    rw [← hpost, hinq]
  · rcases hy with hy | hy <;> simp at hy
  · simp at hph
  · simp at hph

theorem WProg.die {f : I → O} {xs inq outq} {dead : Bool}
    (hp : WProg f xs .exiting inq outq dead) :
    WProg f xs .terminated inq outq true := by
  obtain ⟨pre, post, hxs, houtq, hc⟩ := hp
  rcases hc with ⟨hph, _, _⟩ | ⟨y, p2, _, _, hy, _⟩ | ⟨_, hpost, hinq, _⟩ | ⟨hph, _, _, _⟩
  · simp at hph
  · rcases hy with hy | hy <;> simp at hy
  · exact ⟨pre, post, hxs, houtq, Or.inr (Or.inr (Or.inr ⟨rfl, hpost, hinq, rfl⟩))⟩
  · simp at hph

theorem WProg.completed {f : I → O} {xs inq outq} {dead : Bool}
    (hp : WProg f xs .terminated inq outq dead) :
    inq = [] ∧ outq = xs.map f ∧ dead = true := by
  obtain ⟨pre, post, hxs, houtq, hc⟩ := hp
  rcases hc with ⟨hph, _, _⟩ | ⟨y, p2, _, _, hy, _⟩ | ⟨hph, _, _, _⟩ | ⟨_, hpost, hinq, hdead⟩
  · simp at hph
  · rcases hy with hy | hy <;> simp at hy
  · simp at hph
  · subst hpost
    rw [List.append_nil] at hxs
    exact ⟨hinq, by rw [houtq, hxs], hdead⟩

/-- The burst call `c` has completed its pushes and spawned the lone worker,
which is making progress; nothing has been popped. -/
def Running (c : CallRec I) (s : SysState I O) : Prop :=
  s.log = items c ∧ s.consumed = [] ∧
  ∃ w, s.workers = [w] ∧
    WProg s.function (items c) w s.inqueue s.outqueue s.thread_dead

theorem Running.wPop {c : CallRec I} {s : SysState I O} {wid : Nat} {x : I}
    {rest : List I} (hr : Running c s) (hw : s.workers[wid]? = some .atHead)
    (hinq : s.inqueue = x :: rest) :
    Running c { s with inqueue := rest, workers := s.workers.set wid (.gotItem x) } := by
  obtain ⟨hlog, hcons, w, hws, hp⟩ := hr
  rw [hws] at hw
  obtain ⟨hwid, hphase⟩ := singleton_get hw
  subst hwid
  refine ⟨hlog, hcons, .gotItem x, by rw [hws]; rfl, ?_⟩
  rw [hphase] at hp
  exact hp.pop hinq

theorem Running.wLockOut {c : CallRec I} {s : SysState I O} {wid : Nat} {x : I}
    (hr : Running c s) (hw : s.workers[wid]? = some (.gotItem x)) :
    Running c { s with workers := s.workers.set wid (.invoking x) } := by
  obtain ⟨hlog, hcons, w, hws, hp⟩ := hr
  rw [hws] at hw
  obtain ⟨hwid, hphase⟩ := singleton_get hw
  subst hwid
  refine ⟨hlog, hcons, .invoking x, by rw [hws]; rfl, ?_⟩
  rw [hphase] at hp
  exact hp.lockOut

theorem Running.wApply {c : CallRec I} {s : SysState I O} {wid : Nat} {x : I}
    (hr : Running c s) (hw : s.workers[wid]? = some (.invoking x)) :
    Running c { s with outqueue := s.outqueue ++ [s.function x]
                       done := s.done ++ [x]
                       workers := s.workers.set wid .atHead } := by
  obtain ⟨hlog, hcons, w, hws, hp⟩ := hr
  rw [hws] at hw
  obtain ⟨hwid, hphase⟩ := singleton_get hw
  subst hwid
  refine ⟨hlog, hcons, .atHead, by rw [hws]; rfl, ?_⟩
  rw [hphase] at hp
  exact hp.applyStep

theorem Running.wExit {c : CallRec I} {s : SysState I O} {wid : Nat}
    (hr : Running c s) (hw : s.workers[wid]? = some .atHead)
    (hinq : s.inqueue = []) :
    Running c { s with workers := s.workers.set wid .exiting } := by
  obtain ⟨hlog, hcons, w, hws, hp⟩ := hr
  rw [hws] at hw
  obtain ⟨hwid, hphase⟩ := singleton_get hw
  subst hwid
  refine ⟨hlog, hcons, .exiting, by rw [hws]; rfl, ?_⟩
  rw [hphase] at hp
  exact hp.exit hinq

theorem Running.wDie {c : CallRec I} {s : SysState I O} {wid : Nat}
    (hr : Running c s) (hw : s.workers[wid]? = some .exiting) :
    Running c { s with thread_dead := true
                       workers := s.workers.set wid .terminated } := by
  obtain ⟨hlog, hcons, w, hws, hp⟩ := hr
  rw [hws] at hw
  obtain ⟨hwid, hphase⟩ := singleton_get hw
  subst hwid
  refine ⟨hlog, hcons, .terminated, by rw [hws]; rfl, ?_⟩
  rw [hphase] at hp
  exact hp.die

/-- The burst has been fully processed and the worker has terminated. -/
theorem Running.drained {c : CallRec I} {s : SysState I O}
    (hr : Running c s) (hterm : s.workers = [.terminated]) :
    s.inqueue = [] ∧ s.outqueue = (items c).map s.function ∧
    s.thread_dead = true := by
  obtain ⟨hlog, hcons, w, hws, hp⟩ := hr
  rw [hws] at hterm
  have hw : w = .terminated := by
    have := List.cons.injEq w [] WPhase.terminated [] ▸ hterm
    simpa using hterm
  rw [hw] at hp
  exact hp.completed

/-- Call lists allowed in the burst-then-join scenario. -/
def ScenarioCalls (c : CallRec I) (cs : List (CallRec I)) : Prop :=
  cs = [] ∨ cs = [c] ∨ cs = [c, .cJoin]

theorem ScenarioCalls.of_append {c : CallRec I} {as e : List (CallRec I)}
    (h : ScenarioCalls c (as ++ e)) : ScenarioCalls c as := by
  rcases h with h | h | h
  · rw [List.append_eq_nil] at h
    exact Or.inl h.1
  · cases as with
    | nil => exact Or.inl rfl
    | cons a t =>
      rw [List.cons_append, List.cons.injEq] at h
      obtain ⟨ha, ht⟩ := h
      rw [List.append_eq_nil] at ht
      exact Or.inr (Or.inl (by rw [ha, ht.1]))
  · cases as with
    | nil => exact Or.inl rfl
    | cons a t =>
      rw [List.cons_append, List.cons.injEq] at h
      obtain ⟨ha, ht⟩ := h
      cases t with
      | nil => exact Or.inr (Or.inl (by rw [ha]))
      | cons b u =>
        rw [List.cons_append, List.cons.injEq] at ht
        obtain ⟨hb, hu⟩ := ht
        rw [List.append_eq_nil] at hu
        exact Or.inr (Or.inr (by rw [ha, hb, hu.1]))

theorem WProg.term_of_dead {f : I → O} {xs : List I} {w : WPhase I}
    {inq : List I} {outq : List O} (hp : WProg f xs w inq outq true) :
    w = .terminated ∧ inq = [] ∧ outq = xs.map f := by
  obtain ⟨pre, post, hxs, houtq, hc⟩ := hp
  rcases hc with ⟨_, _, hdead⟩ | ⟨y, p2, _, _, _, hdead⟩ | ⟨_, _, _, hdead⟩ |
    ⟨hph, hpost, hinq, _⟩
  · simp at hdead
  · simp at hdead
  · simp at hdead
  · subst hpost
    rw [List.append_nil] at hxs
    exact ⟨hph, hinq, by rw [houtq, hxs]⟩

theorem Running.finished_of_dead {c : CallRec I} {s : SysState I O}
    (hr : Running c s) (hdead : s.thread_dead = true) :
    s.workers = [.terminated] ∧ s.inqueue = [] ∧
    s.outqueue = (items c).map s.function ∧ s.log = items c ∧ s.consumed = [] := by
  obtain ⟨hlog, hcons, w, hws, hp⟩ := hr
  rw [hdead] at hp
  obtain ⟨hterm, hinq, houtq⟩ := hp.term_of_dead
  exact ⟨by rw [hws, hterm], hinq, houtq, hlog, hcons⟩

/-- Scenario invariant, stage "burst call in progress or completed":
either the batch loop is still pushing (`A1`, batch only), or the producer
is at the spawn check (`A2`), or inside `create_thread` (`A3`), or the call
has returned and the lone spawned worker is processing the burst (`A4`). -/
def SCmid (c : CallRec I) (s : SysState I O) : Prop :=
  (∃ pre rest, c = .cEnqueVec (pre ++ rest) ∧ s.pctl = .pushing rest ∧
     s.inqueue = pre ∧ s.log = pre ∧ s.workers = [] ∧ s.thread_dead = true ∧
     s.outqueue = [] ∧ s.consumed = []) ∨
  (s.pctl = .spawnCheck ∧ s.inqueue = items c ∧ s.log = items c ∧
     s.workers = [] ∧ s.thread_dead = true ∧ s.outqueue = [] ∧ s.consumed = []) ∨
  (s.pctl = .spawning ∧ s.inqueue = items c ∧ s.log = items c ∧
     s.workers = [] ∧ s.thread_dead = false ∧ s.outqueue = [] ∧ s.consumed = []) ∨
  (s.pctl = .idle ∧ s.thread_handle = some 0 ∧ Running c s)

/-- Scenario invariant, stage "join called": the producer is swapping out
the handle (`B1`), waiting for the worker (`B2`), or done (`B3`), in which
case the whole burst has been transformed in order. -/
def SCjoin (c : CallRec I) (s : SysState I O) : Prop :=
  (s.pctl = .swapping ∧ s.thread_handle = some 0 ∧ Running c s) ∨
  (s.pctl = .joining 0 ∧ s.thread_handle = none ∧ Running c s) ∨
  (s.pctl = .idle ∧ s.workers = [.terminated] ∧ s.inqueue = [] ∧
     s.outqueue = (items c).map s.function ∧ s.thread_dead = true ∧
     s.log = items c ∧ s.consumed = [])

/-- Scenario invariant for "fresh queue; one burst enqueue `c`; one join". -/
def SC (c : CallRec I) (s : SysState I O) : Prop :=
  (s.calls = [] ∧ s = new s.function) ∨
  (s.calls = [c] ∧ SCmid c s) ∨
  (s.calls = [c, .cJoin] ∧ SCjoin c s)

/-- One-step preservation of the scenario invariant, for steps that stay
inside the scenario's call budget. -/
theorem SC.sc_preserved {c : CallRec I} {s s' : SysState I O} {l : SLabel I}
    (hsc : SC c s) (hb : IsBurst c) (hstep : LStep s l s')
    (hcalls : ScenarioCalls c s'.calls) : SC c s' := by
  cases hstep with
  | callEnque x h1 h2 =>
    rcases hsc with ⟨hc0, hs⟩ | ⟨hc1, hmid⟩ | ⟨hc2, hjn⟩
    · rcases hcalls with h | h | h
      · have h' : s.calls ++ [CallRec.cEnque x] = [] := h
        simp at h'
      · have h' : s.calls ++ [CallRec.cEnque x] = [c] := h
        rw [hc0] at h'
        have hcx : c = .cEnque x := by simpa using h'.symm
        refine Or.inr (Or.inl ⟨?_, Or.inr (Or.inl
          ⟨rfl, ?_, ?_, ?_, ?_, ?_, ?_⟩)⟩)
        · show s.calls ++ [CallRec.cEnque x] = [c]
          rw [hc0, hcx]
          rfl
        · show s.inqueue ++ [x] = items c
          rw [hcx, hs]
          rfl
        · show s.log ++ [x] = items c
          rw [hcx, hs]
          rfl
        · show s.workers = []
          rw [hs]
          rfl
        · show s.thread_dead = true
          rw [hs]
          rfl
        · show s.outqueue = []
          rw [hs]
          rfl
        · show s.consumed = []
          rw [hs]
          rfl
      · have h' : s.calls ++ [CallRec.cEnque x] = [c, .cJoin] := h
        rw [hc0] at h'
        simp at h'
    · rcases hcalls with h | h | h <;>
        (have h' : s.calls ++ [CallRec.cEnque x] = _ := h; rw [hc1] at h';
         simp at h')
    · rcases hcalls with h | h | h <;>
        (have h' : s.calls ++ [CallRec.cEnque x] = _ := h; rw [hc2] at h';
         simp at h')
  | callEnqueVec xs h1 =>
    rcases hsc with ⟨hc0, hs⟩ | ⟨hc1, hmid⟩ | ⟨hc2, hjn⟩
    · rcases hcalls with h | h | h
      · have h' : s.calls ++ [CallRec.cEnqueVec xs] = [] := h
        simp at h'
      · have h' : s.calls ++ [CallRec.cEnqueVec xs] = [c] := h
        rw [hc0] at h'
        have hcx : c = .cEnqueVec xs := by simpa using h'.symm
        refine Or.inr (Or.inl ⟨?_,
          Or.inl ⟨[], xs, by rw [hcx]; rfl, rfl, ?_, ?_, ?_, ?_, ?_, ?_⟩⟩)
        · show s.calls ++ [CallRec.cEnqueVec xs] = [c]
          rw [hc0, hcx]
          rfl
        · show s.inqueue = []
          rw [hs]
          rfl
        · show s.log = []
          rw [hs]
          rfl
        · show s.workers = []
          rw [hs]
          rfl
        · show s.thread_dead = true
          rw [hs]
          rfl
        · show s.outqueue = []
          rw [hs]
          rfl
        · show s.consumed = []
          rw [hs]
          rfl
      · have h' : s.calls ++ [CallRec.cEnqueVec xs] = [c, .cJoin] := h
        rw [hc0] at h'
        simp at h'
    · rcases hcalls with h | h | h <;>
        (have h' : s.calls ++ [CallRec.cEnqueVec xs] = _ := h; rw [hc1] at h';
         simp at h')
    · rcases hcalls with h | h | h <;>
        (have h' : s.calls ++ [CallRec.cEnqueVec xs] = _ := h; rw [hc2] at h';
         simp at h')
  | pushStep x rest h1 h2 =>
    rcases hsc with ⟨hc0, hs⟩ | ⟨hc1, hmid⟩ | ⟨hc2, hjn⟩
    · rw [hs] at h1
      simp [new] at h1
    · rcases hmid with ⟨pre, rest0, hcv, hpctl, hinq, hlog, hwk, hdead, houtq, hcons⟩ |
        ⟨hpctl, _⟩ | ⟨hpctl, _⟩ | ⟨hpctl, _, _⟩
      · rw [hpctl] at h1
        cases h1
        refine Or.inr (Or.inl ⟨hc1, Or.inl ⟨pre ++ [x], rest, ?_, rfl, ?_, ?_,
          hwk, hdead, houtq, hcons⟩⟩)
        · rw [hcv]
          simp
        · show s.inqueue ++ [x] = pre ++ [x]
          rw [hinq]
        · show s.log ++ [x] = pre ++ [x]
          rw [hlog]
      · rw [hpctl] at h1
        simp at h1
      · rw [hpctl] at h1
        simp at h1
      · rw [hpctl] at h1
        simp at h1
    · rcases hjn with ⟨hpctl, _⟩ | ⟨hpctl, _⟩ | ⟨hpctl, _⟩ <;>
        (rw [hpctl] at h1; simp at h1)
  | pushDone h1 =>
    rcases hsc with ⟨hc0, hs⟩ | ⟨hc1, hmid⟩ | ⟨hc2, hjn⟩
    · rw [hs] at h1
      simp [new] at h1
    · rcases hmid with ⟨pre, rest0, hcv, hpctl, hinq, hlog, hwk, hdead, houtq, hcons⟩ |
        ⟨hpctl, _⟩ | ⟨hpctl, _⟩ | ⟨hpctl, _, _⟩
      · rw [hpctl] at h1
        cases h1
        refine Or.inr (Or.inl ⟨hc1, Or.inr (Or.inl ⟨rfl, ?_, ?_, hwk, hdead,
          houtq, hcons⟩)⟩)
        · show s.inqueue = items c
          rw [hinq, hcv]
          simp [items]
        · show s.log = items c
          rw [hlog, hcv]
          simp [items]
      · rw [hpctl] at h1
        simp at h1
      · rw [hpctl] at h1
        simp at h1
      · rw [hpctl] at h1
        simp at h1
    · rcases hjn with ⟨hpctl, _⟩ | ⟨hpctl, _⟩ | ⟨hpctl, _⟩ <;>
        (rw [hpctl] at h1; simp at h1)
  | checkDeadTrue h1 h2 =>
    rcases hsc with ⟨hc0, hs⟩ | ⟨hc1, hmid⟩ | ⟨hc2, hjn⟩
    · rw [hs] at h1
      simp [new] at h1
    · rcases hmid with ⟨pre, rest0, hcv, hpctl, hinq, hlog, hwk, hdead, houtq, hcons⟩ |
        ⟨hpctl, hinq, hlog, hwk, hdead, houtq, hcons⟩ | ⟨hpctl, _⟩ | ⟨hpctl, _, _⟩
      · rw [hpctl] at h1
        simp at h1
      · exact Or.inr (Or.inl ⟨hc1, Or.inr (Or.inr (Or.inl
          ⟨rfl, hinq, hlog, hwk, rfl, houtq, hcons⟩))⟩)
      · rw [hpctl] at h1
        simp at h1
      · rw [hpctl] at h1
        simp at h1
    · rcases hjn with ⟨hpctl, _⟩ | ⟨hpctl, _⟩ | ⟨hpctl, _⟩ <;>
        (rw [hpctl] at h1; simp at h1)
  | checkDeadFalse h1 h2 =>
    rcases hsc with ⟨hc0, hs⟩ | ⟨hc1, hmid⟩ | ⟨hc2, hjn⟩
    · rw [hs] at h1
      simp [new] at h1
    · rcases hmid with ⟨pre, rest0, hcv, hpctl, hinq, hlog, hwk, hdead, houtq, hcons⟩ |
        ⟨hpctl, hinq, hlog, hwk, hdead, houtq, hcons⟩ | ⟨hpctl, _⟩ | ⟨hpctl, _, _⟩
      · rw [hpctl] at h1
        simp at h1
      · rw [hdead] at h2
        simp at h2
      · rw [hpctl] at h1
        simp at h1
      · rw [hpctl] at h1
        simp at h1
    · rcases hjn with ⟨hpctl, _⟩ | ⟨hpctl, _⟩ | ⟨hpctl, _⟩ <;>
        (rw [hpctl] at h1; simp at h1)
  | spawnStep h1 =>
    rcases hsc with ⟨hc0, hs⟩ | ⟨hc1, hmid⟩ | ⟨hc2, hjn⟩
    · rw [hs] at h1
      simp [new] at h1
    · rcases hmid with ⟨pre, rest0, hcv, hpctl, hinq, hlog, hwk, hdead, houtq, hcons⟩ |
        ⟨hpctl, _⟩ | ⟨hpctl, hinq, hlog, hwk, hdead, houtq, hcons⟩ | ⟨hpctl, _, _⟩
      · rw [hpctl] at h1
        simp at h1
      · rw [hpctl] at h1
        simp at h1
      · refine Or.inr (Or.inl ⟨hc1, Or.inr (Or.inr (Or.inr ⟨rfl, ?_, hlog,
          hcons, .atHead, ?_, ?_⟩))⟩)
        · show some s.workers.length = some 0
          rw [hwk]
          rfl
        · show s.workers ++ [.atHead] = [.atHead]
          rw [hwk]
          rfl
        · show WProg s.function (items c) .atHead s.inqueue s.outqueue s.thread_dead
          rw [hinq, houtq, hdead]
          exact WProg.start _ _
      · rw [hpctl] at h1
        simp at h1
    · rcases hjn with ⟨hpctl, _⟩ | ⟨hpctl, _⟩ | ⟨hpctl, _⟩ <;>
        (rw [hpctl] at h1; simp at h1)
  | callJoinDead h1 h2 =>
    rcases hsc with ⟨hc0, hs⟩ | ⟨hc1, hmid⟩ | ⟨hc2, hjn⟩
    · rcases hcalls with h | h | h
      · have h' : s.calls ++ [CallRec.cJoin] = [] := h
        simp at h'
      · have h' : s.calls ++ [CallRec.cJoin] = [c] := h
        rw [hc0] at h'
        have hcx : c = .cJoin := by simpa using h'.symm
        rw [hcx] at hb
        simp [IsBurst] at hb
      · have h' : s.calls ++ [CallRec.cJoin] = [c, .cJoin] := h
        rw [hc0] at h'
        simp at h'
    · rcases hmid with ⟨pre, rest0, hcv, hpctl, hinq, hlog, hwk, hdead, houtq, hcons⟩ |
        ⟨hpctl, _⟩ | ⟨hpctl, _⟩ | ⟨hpctl, hhandle, hr⟩
      · rw [hpctl] at h1
        simp at h1
      · rw [hpctl] at h1
        simp at h1
      · rw [hpctl] at h1
        simp at h1
      · obtain ⟨hws, hinq, houtq, hlog, hcons⟩ := hr.finished_of_dead h2
        refine Or.inr (Or.inr ⟨?_, Or.inr (Or.inr
          ⟨hpctl, hws, hinq, houtq, h2, hlog, hcons⟩)⟩)
        show s.calls ++ [CallRec.cJoin] = [c, .cJoin]
        rw [hc1]
        rfl
    · rcases hjn with ⟨hpctl, _⟩ | ⟨hpctl, _⟩ | ⟨hpctl, _⟩
      · rw [hpctl] at h1
        simp at h1
      · rw [hpctl] at h1
        simp at h1
      · rcases hcalls with h | h | h <;>
          (have h' : s.calls ++ [CallRec.cJoin] = _ := h; rw [hc2] at h';
           simp at h')
  | callJoinAlive h1 h2 =>
    rcases hsc with ⟨hc0, hs⟩ | ⟨hc1, hmid⟩ | ⟨hc2, hjn⟩
    · rw [hs] at h2
      simp [new] at h2
    · rcases hmid with ⟨pre, rest0, hcv, hpctl, hinq, hlog, hwk, hdead, houtq, hcons⟩ |
        ⟨hpctl, _⟩ | ⟨hpctl, _⟩ | ⟨hpctl, hhandle, hr⟩
      · rw [hpctl] at h1
        simp at h1
      · rw [hpctl] at h1
        simp at h1
      · rw [hpctl] at h1
        simp at h1
      · refine Or.inr (Or.inr ⟨?_, Or.inl ⟨rfl, hhandle, hr⟩⟩)
        show s.calls ++ [CallRec.cJoin] = [c, .cJoin]
        rw [hc1]
        rfl
    · rcases hjn with ⟨hpctl, _⟩ | ⟨hpctl, _⟩ | ⟨hpctl, _, _, _, hdead, _⟩
      · rw [hpctl] at h1
        simp at h1
      · rw [hpctl] at h1
        simp at h1
      · rcases hcalls with h | h | h <;>
          (have h' : s.calls ++ [CallRec.cJoin] = _ := h; rw [hc2] at h';
           simp at h')
  | swapSome wid h1 h2 =>
    rcases hsc with ⟨hc0, hs⟩ | ⟨hc1, hmid⟩ | ⟨hc2, hjn⟩
    · rw [hs] at h1
      simp [new] at h1
    · rcases hmid with ⟨pre, rest0, hcv, hpctl, _⟩ |
        ⟨hpctl, _⟩ | ⟨hpctl, _⟩ | ⟨hpctl, _, _⟩ <;>
        (rw [hpctl] at h1; simp at h1)
    · rcases hjn with ⟨hpctl, hhandle, hr⟩ | ⟨hpctl, _⟩ | ⟨hpctl, _⟩
      · rw [hhandle] at h2
        have hwid : wid = 0 := by simpa using h2.symm
        subst hwid
        exact Or.inr (Or.inr ⟨hc2, Or.inr (Or.inl ⟨rfl, rfl, hr⟩)⟩)
      · rw [hpctl] at h1
        simp at h1
      · rw [hpctl] at h1
        simp at h1
  | swapNone h1 h2 =>
    rcases hsc with ⟨hc0, hs⟩ | ⟨hc1, hmid⟩ | ⟨hc2, hjn⟩
    · rw [hs] at h1
      simp [new] at h1
    · rcases hmid with ⟨pre, rest0, hcv, hpctl, _⟩ |
        ⟨hpctl, _⟩ | ⟨hpctl, _⟩ | ⟨hpctl, _, _⟩ <;>
        (rw [hpctl] at h1; simp at h1)
    · rcases hjn with ⟨hpctl, hhandle, hr⟩ | ⟨hpctl, _⟩ | ⟨hpctl, _⟩
      · rw [hhandle] at h2
        simp at h2
      · rw [hpctl] at h1
        simp at h1
      · rw [hpctl] at h1
        simp at h1
  | joinWait wid h1 h2 =>
    rcases hsc with ⟨hc0, hs⟩ | ⟨hc1, hmid⟩ | ⟨hc2, hjn⟩
    · rw [hs] at h1
      simp [new] at h1
    · rcases hmid with ⟨pre, rest0, hcv, hpctl, _⟩ |
        ⟨hpctl, _⟩ | ⟨hpctl, _⟩ | ⟨hpctl, _, _⟩ <;>
        (rw [hpctl] at h1; simp at h1)
    · rcases hjn with ⟨hpctl, _⟩ | ⟨hpctl, hhandle, hr⟩ | ⟨hpctl, _⟩
      · rw [hpctl] at h1
        simp at h1
      · rw [hpctl] at h1
        have hwid : wid = 0 := by
          cases h1
          rfl
        subst hwid
        obtain ⟨hlog, hcons, w, hws, hp⟩ := hr
        rw [hws] at h2
        obtain ⟨_, hterm⟩ := singleton_get h2
        rw [hterm] at hp
        obtain ⟨hinq, houtq, hdead⟩ := hp.completed
        exact Or.inr (Or.inr ⟨hc2, Or.inr (Or.inr ⟨rfl, by rw [hws, hterm],
          hinq, houtq, hdead, hlog, hcons⟩)⟩)
      · rw [hpctl] at h1
        simp at h1
  | callPop h1 h2 =>
    rcases hsc with ⟨hc0, _⟩ | ⟨hc1, _⟩ | ⟨hc2, _⟩
    · rcases hcalls with h | h | h
      · have h' : s.calls ++ [CallRec.cPop] = [] := h
        simp at h'
      · have h' : s.calls ++ [CallRec.cPop] = [c] := h
        rw [hc0] at h'
        have hcx : c = .cPop := by simpa using h'.symm
        rw [hcx] at hb
        simp [IsBurst] at hb
      · have h' : s.calls ++ [CallRec.cPop] = [c, .cJoin] := h
        rw [hc0] at h'
        simp at h'
    · rcases hcalls with h | h | h <;>
        (have h' : s.calls ++ [CallRec.cPop] = _ := h; rw [hc1] at h';
         simp at h')
    · rcases hcalls with h | h | h <;>
        (have h' : s.calls ++ [CallRec.cPop] = _ := h; rw [hc2] at h';
         simp at h')
  | wPop wid x rest hw hinq hfree =>
    rcases hsc with ⟨hc0, hs⟩ | ⟨hc1, hmid⟩ | ⟨hc2, hjn⟩
    · rw [hs] at hw
      simp [new] at hw
    · rcases hmid with ⟨pre, rest0, hcv, hpctl, _, _, hwk, _⟩ |
        ⟨hpctl, _, _, hwk, _⟩ | ⟨hpctl, _, _, hwk, _⟩ | ⟨hpctl, hhandle, hr⟩
      · rw [hwk] at hw
        simp at hw
      · rw [hwk] at hw
        simp at hw
      · rw [hwk] at hw
        simp at hw
      · exact Or.inr (Or.inl ⟨hc1, Or.inr (Or.inr (Or.inr
          ⟨hpctl, hhandle, hr.wPop hw hinq⟩))⟩)
    · rcases hjn with ⟨hpctl, hhandle, hr⟩ | ⟨hpctl, hhandle, hr⟩ |
        ⟨hpctl, hws, _⟩
      · exact Or.inr (Or.inr ⟨hc2, Or.inl ⟨hpctl, hhandle, hr.wPop hw hinq⟩⟩)
      · exact Or.inr (Or.inr ⟨hc2, Or.inr (Or.inl ⟨hpctl, hhandle,
          hr.wPop hw hinq⟩)⟩)
      · rw [hws] at hw
        obtain ⟨_, habs⟩ := singleton_get hw
        simp at habs
  | wExit wid hw hinq hfree =>
    rcases hsc with ⟨hc0, hs⟩ | ⟨hc1, hmid⟩ | ⟨hc2, hjn⟩
    · rw [hs] at hw
      simp [new] at hw
    · rcases hmid with ⟨pre, rest0, hcv, hpctl, _, _, hwk, _⟩ |
        ⟨hpctl, _, _, hwk, _⟩ | ⟨hpctl, _, _, hwk, _⟩ | ⟨hpctl, hhandle, hr⟩
      · rw [hwk] at hw
        simp at hw
      · rw [hwk] at hw
        simp at hw
      · rw [hwk] at hw
        simp at hw
      · exact Or.inr (Or.inl ⟨hc1, Or.inr (Or.inr (Or.inr
          ⟨hpctl, hhandle, hr.wExit hw hinq⟩))⟩)
    · rcases hjn with ⟨hpctl, hhandle, hr⟩ | ⟨hpctl, hhandle, hr⟩ |
        ⟨hpctl, hws, _⟩
      · exact Or.inr (Or.inr ⟨hc2, Or.inl ⟨hpctl, hhandle, hr.wExit hw hinq⟩⟩)
      · exact Or.inr (Or.inr ⟨hc2, Or.inr (Or.inl ⟨hpctl, hhandle,
          hr.wExit hw hinq⟩)⟩)
      · rw [hws] at hw
        obtain ⟨_, habs⟩ := singleton_get hw
        simp at habs
  | wLockOut wid x hw hfree =>
    rcases hsc with ⟨hc0, hs⟩ | ⟨hc1, hmid⟩ | ⟨hc2, hjn⟩
    · rw [hs] at hw
      simp [new] at hw
    · rcases hmid with ⟨pre, rest0, hcv, hpctl, _, _, hwk, _⟩ |
        ⟨hpctl, _, _, hwk, _⟩ | ⟨hpctl, _, _, hwk, _⟩ | ⟨hpctl, hhandle, hr⟩
      · rw [hwk] at hw
        simp at hw
      · rw [hwk] at hw
        simp at hw
      · rw [hwk] at hw
        simp at hw
      · exact Or.inr (Or.inl ⟨hc1, Or.inr (Or.inr (Or.inr
          ⟨hpctl, hhandle, hr.wLockOut hw⟩))⟩)
    · rcases hjn with ⟨hpctl, hhandle, hr⟩ | ⟨hpctl, hhandle, hr⟩ |
        ⟨hpctl, hws, _⟩
      · exact Or.inr (Or.inr ⟨hc2, Or.inl ⟨hpctl, hhandle, hr.wLockOut hw⟩⟩)
      · exact Or.inr (Or.inr ⟨hc2, Or.inr (Or.inl ⟨hpctl, hhandle,
          hr.wLockOut hw⟩)⟩)
      · rw [hws] at hw
        obtain ⟨_, habs⟩ := singleton_get hw
        simp at habs
  | wApply wid x hw =>
    rcases hsc with ⟨hc0, hs⟩ | ⟨hc1, hmid⟩ | ⟨hc2, hjn⟩
    · rw [hs] at hw
      simp [new] at hw
    · rcases hmid with ⟨pre, rest0, hcv, hpctl, _, _, hwk, _⟩ |
        ⟨hpctl, _, _, hwk, _⟩ | ⟨hpctl, _, _, hwk, _⟩ | ⟨hpctl, hhandle, hr⟩
      · rw [hwk] at hw
        simp at hw
      · rw [hwk] at hw
        simp at hw
      · rw [hwk] at hw
        simp at hw
      · exact Or.inr (Or.inl ⟨hc1, Or.inr (Or.inr (Or.inr
          ⟨hpctl, hhandle, hr.wApply hw⟩))⟩)
    · rcases hjn with ⟨hpctl, hhandle, hr⟩ | ⟨hpctl, hhandle, hr⟩ |
        ⟨hpctl, hws, _⟩
      · exact Or.inr (Or.inr ⟨hc2, Or.inl ⟨hpctl, hhandle, hr.wApply hw⟩⟩)
      · exact Or.inr (Or.inr ⟨hc2, Or.inr (Or.inl ⟨hpctl, hhandle,
          hr.wApply hw⟩)⟩)
      · rw [hws] at hw
        obtain ⟨_, habs⟩ := singleton_get hw
        simp at habs
  | wDie wid hw =>
    rcases hsc with ⟨hc0, hs⟩ | ⟨hc1, hmid⟩ | ⟨hc2, hjn⟩
    · rw [hs] at hw
      simp [new] at hw
    · rcases hmid with ⟨pre, rest0, hcv, hpctl, _, _, hwk, _⟩ |
        ⟨hpctl, _, _, hwk, _⟩ | ⟨hpctl, _, _, hwk, _⟩ | ⟨hpctl, hhandle, hr⟩
      · rw [hwk] at hw
        simp at hw
      · rw [hwk] at hw
        simp at hw
      · rw [hwk] at hw
        simp at hw
      · exact Or.inr (Or.inl ⟨hc1, Or.inr (Or.inr (Or.inr
          ⟨hpctl, hhandle, hr.wDie hw⟩))⟩)
    · rcases hjn with ⟨hpctl, hhandle, hr⟩ | ⟨hpctl, hhandle, hr⟩ |
        ⟨hpctl, hws, _⟩
      · exact Or.inr (Or.inr ⟨hc2, Or.inl ⟨hpctl, hhandle, hr.wDie hw⟩⟩)
      · exact Or.inr (Or.inr ⟨hc2, Or.inr (Or.inl ⟨hpctl, hhandle,
          hr.wDie hw⟩)⟩)
      · rw [hws] at hw
        obtain ⟨_, habs⟩ := singleton_get hw
        simp at habs

theorem sc_new (c : CallRec I) (f : I → O) : SC c (new f) :=
  Or.inl ⟨rfl, rfl⟩

theorem SC.sc_holds_along {c : CallRec I} {s s' : SysState I O} {tr : List (SLabel I)}
    (h : Trace s tr s') (hsc : SC c s) (hb : IsBurst c)
    (hcalls : ScenarioCalls c s'.calls) : SC c s' := by
  induction h with
  | nil => exact hsc
  | cons hstep htr ih =>
    obtain ⟨e, he⟩ := htr.calls_mono
    exact ih (hsc.sc_preserved hb hstep (he ▸ hcalls).of_append) hcalls

/-- C1: on a fresh queue with transformation `f`, after a batch enqueue of
`xs` (`enque_vec`) and a completed `join` — under any interleaving with the
worker — the output buffer holds exactly `xs.map f` in order, the input
buffer is empty, and draining by repeated `pop` yields
`some (f x1), ..., some (f xN)` followed by the empty signal `none`. -/
theorem batch_round_trip (f : I → O) (xs : List I) (tr : List (SLabel I))
    (s : SysState I O) (h : Trace (new f) tr s)
    (hcalls : s.calls = [.cEnqueVec xs, .cJoin]) (hidle : s.pctl = .idle) :
    s.outqueue = xs.map f ∧ s.inqueue = [] ∧
    popResults s (xs.length + 1) = xs.map (fun x => some (f x)) ++ [none] := by
  have hsc := SC.sc_holds_along h (sc_new (.cEnqueVec xs) f) (by simp [IsBurst])
    (by rw [hcalls]; exact Or.inr (Or.inr rfl))
  rcases hsc with ⟨hc0, _⟩ | ⟨hc1, _⟩ | ⟨hc2, hjn⟩
  · rw [hcalls] at hc0
    simp at hc0
  · rw [hcalls] at hc1
    simp at hc1
  · rcases hjn with ⟨hpctl, _⟩ | ⟨hpctl, _⟩ |
      ⟨hpctl, hws, hinq, houtq, hdead, hlog, hcons⟩
    · rw [hidle] at hpctl
      simp at hpctl
    · rw [hidle] at hpctl
      simp at hpctl
    · have hf : s.function = f := h.function_const
      have houtq' : s.outqueue = xs.map f := by
        rw [houtq, hf]
        rfl
      refine ⟨houtq', hinq, ?_⟩
      rw [popResults_eq, houtq']
      rw [List.take_of_length_le (by simp), List.map_map]
      simp

/-- Witness for C1: the batch `[5]` with `f = Nat.succ`, through an explicit
complete interleaving. -/
theorem batch_round_trip_witness :
    ({ function := Nat.succ, thread_handle := some 0, outqueue := [6],
       inqueue := [], thread_dead := true, workers := [.terminated],
       pctl := .idle, log := [5], done := [5], consumed := [],
       calls := [.cEnqueVec [5], .cJoin] } : SysState Nat Nat).outqueue =
         [5].map Nat.succ ∧
    ({ function := Nat.succ, thread_handle := some 0, outqueue := [6],
       inqueue := [], thread_dead := true, workers := [.terminated],
       pctl := .idle, log := [5], done := [5], consumed := [],
       calls := [.cEnqueVec [5], .cJoin] } : SysState Nat Nat).inqueue = [] ∧
    popResults
      ({ function := Nat.succ, thread_handle := some 0, outqueue := [6],
         inqueue := [], thread_dead := true, workers := [.terminated],
         pctl := .idle, log := [5], done := [5], consumed := [],
         calls := [.cEnqueVec [5], .cJoin] } : SysState Nat Nat) 2 =
      [5].map (fun x => some (Nat.succ x)) ++ [none] :=
  batch_round_trip Nat.succ [5] _ _
    (.cons (.callEnqueVec _ [5] rfl)
      (.cons (.pushStep _ 5 [] rfl (by decide))
        (.cons (.pushDone _ rfl)
          (.cons (.checkDeadTrue _ rfl rfl)
            (.cons (.spawnStep _ rfl)
              (.cons (.wPop _ 0 5 [] rfl rfl (by decide))
                (.cons (.wLockOut _ 0 5 rfl (by decide))
                  (.cons (.wApply _ 0 5 rfl)
                    (.cons (.wExit _ 0 rfl rfl (by decide))
                      (.cons (.wDie _ 0 rfl)
                        (.cons (.callJoinDead _ rfl rfl)
                          (.nil _))))))))))))
    rfl rfl

/-- C2: on a fresh queue with transformation `f`, after `enque x` and a
completed `join` — under any interleaving with the worker — the first `pop`
yields `some (f x)` and the second yields the normal empty signal `none`. -/
theorem single_round_trip (f : I → O) (x : I) (tr : List (SLabel I))
    (s : SysState I O) (h : Trace (new f) tr s)
    (hcalls : s.calls = [.cEnque x, .cJoin]) (hidle : s.pctl = .idle) :
    s.outqueue = [f x] ∧ popResults s 2 = [some (f x), none] := by
  have hsc := SC.sc_holds_along h (sc_new (.cEnque x) f) (by simp [IsBurst])
    (by rw [hcalls]; exact Or.inr (Or.inr rfl))
  rcases hsc with ⟨hc0, _⟩ | ⟨hc1, _⟩ | ⟨hc2, hjn⟩
  · rw [hcalls] at hc0
    simp at hc0
  · rw [hcalls] at hc1
    simp at hc1
  · rcases hjn with ⟨hpctl, _⟩ | ⟨hpctl, _⟩ |
      ⟨hpctl, hws, hinq, houtq, hdead, hlog, hcons⟩
    · rw [hidle] at hpctl
      simp at hpctl
    · rw [hidle] at hpctl
      simp at hpctl
    · have hf : s.function = f := h.function_const
      have houtq' : s.outqueue = [f x] := by
        rw [houtq, hf]
        rfl
      refine ⟨houtq', ?_⟩
      rw [popResults_eq, houtq']
      rfl

/-- Witness for C2: `enque 7` with `f = Nat.succ`, through an explicit
complete interleaving. -/
theorem single_round_trip_witness :
    ({ function := Nat.succ, thread_handle := some 0, outqueue := [8],
       inqueue := [], thread_dead := true, workers := [.terminated],
       pctl := .idle, log := [7], done := [7], consumed := [],
       calls := [.cEnque 7, .cJoin] } : SysState Nat Nat).outqueue =
         [Nat.succ 7] ∧
    popResults
      ({ function := Nat.succ, thread_handle := some 0, outqueue := [8],
         inqueue := [], thread_dead := true, workers := [.terminated],
         pctl := .idle, log := [7], done := [7], consumed := [],
         calls := [.cEnque 7, .cJoin] } : SysState Nat Nat) 2 =
      [some (Nat.succ 7), none] :=
  single_round_trip Nat.succ 7 _ _
    (.cons (.callEnque _ 7 rfl (by decide))
      (.cons (.checkDeadTrue _ rfl rfl)
        (.cons (.spawnStep _ rfl)
          (.cons (.wPop _ 0 7 [] rfl rfl (by decide))
            (.cons (.wLockOut _ 0 7 rfl (by decide))
              (.cons (.wApply _ 0 7 rfl)
                (.cons (.wExit _ 0 rfl rfl (by decide))
                  (.cons (.wDie _ 0 rfl)
                    (.cons (.callJoinDead _ rfl rfl)
                      (.nil _))))))))))
    rfl rfl

end BackgroundWorker
